import Mathlib

/-!
Verification of the cyh-obfuscator per-language obfuscation pipeline.

The TypeScript sources are shallowly embedded over `List Char`.  Each
regular-expression pass of the source is translated into an explicit
scanner; `String.prototype.replace` with a `g` flag becomes a fueled
left-to-right rewriting scan, `split(sep).join(rep)` becomes `replaceAll`,
and single `replace` with a string pattern becomes `replaceFirst` together
with the ECMAScript `GetSubstitution` dollar-pattern handling.  Character
handling is modelled at the level of Unicode code points, which agrees
with the JavaScript UTF-16 code-unit view on all inputs used here (no
astral-plane characters appear in any statement).  `Math.random()` driven
choices are abstracted as explicit oracle streams: `Bool` streams for
probability checks, `Nat` streams for uniform picks, and `List Char`
streams for the random parts of generated identifier names; universally
quantified theorems hold for every oracle, and concrete evaluations fix a
concrete oracle.
-/

namespace Obf

/-- Intensity levels of `ObfuscationOptions.intensity` (types.ts). -/
inductive Intensity where
  | low | medium | high | extreme
deriving DecidableEq, Repr

/-- The options record `ObfuscationOptions` from types.ts. -/
structure Opts where
  renameVariables : Bool
  encodeStrings : Bool
  removeComments : Bool
  controlFlowFlattening : Bool
  deadCodeInjection : Bool
  unicodeEscape : Bool
  hexEncoding : Bool
  base64Strings : Bool
  shuffleCode : Bool
  minify : Bool
  intensity : Intensity
deriving DecidableEq, Repr

/-- `defaultOptions` from types.ts. -/
def defaultOptions : Opts :=
  { renameVariables := true, encodeStrings := true, removeComments := true,
    controlFlowFlattening := true, deadCodeInjection := true, unicodeEscape := true,
    hexEncoding := true, base64Strings := false, shuffleCode := true,
    minify := false, intensity := .high }

/-- All-off options at low intensity: every optional stage is skipped. -/
def optsOff : Opts :=
  { renameVariables := false, encodeStrings := false, removeComments := false,
    controlFlowFlattening := false, deadCodeInjection := false, unicodeEscape := false,
    hexEncoding := false, base64Strings := false, shuffleCode := false,
    minify := false, intensity := .low }

/-- `minify || intensity === 'high' || intensity === 'extreme'`, the guard
most handlers use for their minification stage. -/
def minifyOn (o : Opts) : Bool :=
  o.minify || o.intensity = .high || o.intensity = .extreme

/-- JavaScript regex `\s` on ASCII: space, tab, newline, carriage return,
vertical tab, form feed. -/
def wsChar (c : Char) : Bool :=
  c = ' ' || c = '\t' || c = '\n' || c = '\r' || c = '\x0b' || c = '\x0c'

/-- JavaScript regex `\w`: ASCII letters, digits and underscore. -/
def wordChar (c : Char) : Bool :=
  ('a' ≤ c && c ≤ 'z') || ('A' ≤ c && c ≤ 'Z') || ('0' ≤ c && c ≤ '9') || c = '_'

/-- First character class of a JavaScript identifier `[a-zA-Z_]`. -/
def identStart (c : Char) : Bool :=
  ('a' ≤ c && c ≤ 'z') || ('A' ≤ c && c ≤ 'Z') || c = '_'

/-- Identifier continuation class `[a-zA-Z0-9_]`. -/
def identChar (c : Char) : Bool :=
  identStart c || ('0' ≤ c && c ≤ '9')

/-- Decimal digit for values below ten, hexadecimal letter above. -/
def digCh (n : Nat) : Char :=
  if n < 10 then Char.ofNat (48 + n) else Char.ofNat (87 + n)

/-- Fueled big-endian base-`b` digit expansion. -/
def natCharsGo (b : Nat) : Nat → Nat → List Char
  | 0, _ => []
  | f + 1, n =>
    if n < b then [digCh n]
    else natCharsGo b f (n / b) ++ [digCh (n % b)]

/-- Decimal representation of a natural number, as JavaScript prints it
inside a template literal. -/
def natChars (n : Nat) : List Char := natCharsGo 10 (n + 1) n

/-- Hexadecimal representation, as `Number.prototype.toString(16)`. -/
def hexChars (n : Nat) : List Char := natCharsGo 16 (n + 1) n

/-- `String.prototype.padStart(k, '0')` on a digit list. -/
def padZero (k : Nat) (l : List Char) : List Char :=
  List.replicate (k - l.length) '0' ++ l

/-- Whether `pat` occurs as a contiguous substring of `l`. -/
def occurs (pat l : List Char) : Prop := pat <:+: l

instance (pat l : List Char) : Decidable (occurs pat l) := by
  unfold occurs; infer_instance

/-- Left-to-right non-overlapping rewrite of every occurrence of `pat` by
`rep`, the behaviour of `text.split(pat).join(rep)` for nonempty `pat`.
The `skip` counter carries the remainder of a match that has already been
rewritten. -/
def raGo (pat rep : List Char) : Nat → List Char → List Char
  | 0, [] => []
  | 0, c :: cs =>
    if pat.isPrefixOf (c :: cs) then rep ++ raGo pat rep (pat.length - 1) cs
    else c :: raGo pat rep 0 cs
  | _ + 1, [] => []
  | s + 1, _ :: cs => raGo pat rep s cs

/-- `text.split(pat).join(rep)` (used by the Lua, Perl, Bash, Rust and
generic handlers to re-insert protected literals). -/
def replaceAll (pat rep text : List Char) : List Char :=
  if pat = [] then text else raGo pat rep 0 text

/-- Index of the first occurrence of `pat` in the text, if any
(`String.prototype.indexOf`). -/
def idxOf (pat : List Char) : List Char → Option Nat
  | [] => if pat = [] then some 0 else none
  | c :: cs =>
    if pat.isPrefixOf (c :: cs) then some 0
    else (idxOf pat cs).map (· + 1)

/-- ECMAScript `GetSubstitution` for a string search value: expand `$$`,
`$&`, `` $` `` and `$'` in the replacement; every other `$` sequence is
literal because a string pattern has no capture groups. -/
def dollarSubst (matched before after : List Char) : List Char → List Char
  | [] => []
  | '$' :: '$' :: r => '$' :: dollarSubst matched before after r
  | '$' :: '&' :: r => matched ++ dollarSubst matched before after r
  | '$' :: '`' :: r => before ++ dollarSubst matched before after r
  | '$' :: '\'' :: r => after ++ dollarSubst matched before after r
  | c :: r => c :: dollarSubst matched before after r

/-- `text.replace(pat, rep)` with a *string* pattern: rewrite only the
first occurrence, applying the ECMAScript dollar substitution to `rep`.
The `seen` argument accumulates the part of the text to the left of the
scan position, as `` $` `` needs it. -/
def rfGo (pat rep : List Char) : List Char → List Char → List Char
  | _, [] => []
  | seen, c :: cs =>
    if pat.isPrefixOf (c :: cs) then
      dollarSubst pat seen.reverse (List.drop pat.length (c :: cs)) rep ++
        List.drop pat.length (c :: cs)
    else c :: rfGo pat rep (c :: seen) cs

/-- `text.replace(pat, rep)` for a string pattern (first occurrence). -/
def replaceFirst (pat rep text : List Char) : List Char := rfGo pat rep [] text

/-- Scan the inside of a quoted literal for the regex
`q(?:[^q\\]|\\.)*q`: consume escape pairs (whose second character may not
be a newline, since `.` does not match a newline) and plain characters
until the closing quote.  Returns the consumed characters including the
closing quote, and the rest. -/
def scanQ (q : Char) : List Char → Option (List Char × List Char)
  | [] => none
  | c :: cs =>
    if c = q then some ([q], cs)
    else if c = '\\' then
      match cs with
      | [] => none
      | d :: ds =>
        if d = '\n' then none
        else (scanQ q ds).map (fun p => ('\\' :: d :: p.1, p.2))
    else (scanQ q cs).map (fun p => (c :: p.1, p.2))

/-- Match a full quoted literal `q...q` at the head of the input. -/
def matchQ (q : Char) : List Char → Option (List Char × List Char)
  | [] => none
  | c :: cs => if c = q then (scanQ q cs).map (fun p => (q :: p.1, p.2)) else none

/-- Fueled global regex replace: the matcher `M` either yields the
replacement text for a match at the current position together with the
rest of the input, or the scan advances one character.  Called with fuel
equal to the text length, which suffices because every matcher consumes
at least one character. -/
def gsubF (M : List Char → Option (List Char × List Char)) :
    Nat → List Char → List Char
  | _, [] => []
  | 0, cs => cs
  | f + 1, c :: cs =>
    match M (c :: cs) with
    | some (rep, rest) => rep ++ gsubF M f rest
    | none => c :: gsubF M f cs

/-- Global regex replace driven by matcher `M`. -/
def gsub (M : List Char → Option (List Char × List Char)) (text : List Char) : List Char :=
  gsubF M text.length text

/-- Fueled global replace for patterns that inspect the previous
character (word boundaries, lookbehind): the matcher also returns the new
previous character after the consumed match. -/
def gsubPF (M : Option Char → List Char → Option (List Char × List Char × Option Char)) :
    Nat → Option Char → List Char → List Char
  | _, _, [] => []
  | 0, _, cs => cs
  | f + 1, prev, c :: cs =>
    match M prev (c :: cs) with
    | some (rep, rest, np) => rep ++ gsubPF M f np rest
    | none => c :: gsubPF M f (some c) cs

/-- Global replace with previous-character tracking. -/
def gsubP (M : Option Char → List Char → Option (List Char × List Char × Option Char))
    (text : List Char) : List Char :=
  gsubPF M text.length none text

/-- Fueled literal-extraction pass: on a match the matched original is
recorded, the placeholder `mk i` is emitted and the index advances. -/
def extGo (M : List Char → Option (List Char × List Char)) (mk : Nat → List Char) :
    Nat → Nat → List Char → List Char × List (List Char)
  | _, _, [] => ([], [])
  | 0, _, cs => (cs, [])
  | f + 1, i, c :: cs =>
    match M (c :: cs) with
    | some (m, rest) =>
      let p := extGo M mk f (i + 1) rest
      (mk i ++ p.1, m :: p.2)
    | none =>
      let p := extGo M mk f i cs
      (c :: p.1, p.2)

/-- Literal-extraction pass over a whole text, starting at index `i`. -/
def extract (M : List Char → Option (List Char × List Char)) (mk : Nat → List Char)
    (i : Nat) (text : List Char) : List Char × List (List Char) :=
  extGo M mk text.length i text

/-- Matcher for `"(?:[^"\\]|\\.)*"|'(?:[^'\\]|\\.)*'`. -/
def mQuote2 (l : List Char) : Option (List Char × List Char) :=
  match matchQ '"' l with
  | some p => some p
  | none => matchQ '\'' l

/-- Scan a run of characters other than `q` up to and including `q`
(regex `[^q]*q`), with no escape handling. -/
def scanNoEsc (q : Char) : List Char → Option (List Char × List Char)
  | [] => none
  | c :: cs =>
    if c = q then some ([q], cs)
    else (scanNoEsc q cs).map (fun p => (c :: p.1, p.2))

/-- Matcher for the Bash single-quote literal `'[^']*'`. -/
def mSingleNoEsc (l : List Char) : Option (List Char × List Char) :=
  match l with
  | '\'' :: cs => (scanNoEsc '\'' cs).map (fun p => ('\'' :: p.1, p.2))
  | _ => none

/-- Scan `[^\]]*]]` for Lua long brackets: stop at the first `]`, which
must be immediately followed by another `]`. -/
def scanBr : List Char → Option (List Char × List Char)
  | [] => none
  | ']' :: ']' :: r => some ([']', ']'], r)
  | ']' :: _ => none
  | c :: cs => (scanBr cs).map (fun p => (c :: p.1, p.2))

/-- Matcher for the Lua long-bracket literal `\[\[[^\]]*\]\]`. -/
def mLuaBracket (l : List Char) : Option (List Char × List Char) :=
  if "[[".data.isPrefixOf l then
    (scanBr (l.drop 2)).map (fun p => ('[' :: '[' :: p.1, p.2))
  else none

/-- Lazy scan up to and including the first occurrence of `stop`
(regex `[\s\S]*?stop`). -/
def scanUntil (stop l : List Char) : Option (List Char × List Char) :=
  (idxOf stop l).map (fun n => (l.take (n + stop.length), l.drop (n + stop.length)))

/-- Matcher deleting `--\[\[[^\]]*\]\]` (Lua multi-line comments). -/
def mLuaMultiComment (l : List Char) : Option (List Char × List Char) :=
  match l with
  | '-' :: '-' :: '[' :: '[' :: cs => (scanBr cs).map (fun p => ([], p.2))
  | _ => none

/-- Matcher deleting `--[^\n]*` (Lua line comments). -/
def mLuaLineComment (l : List Char) : Option (List Char × List Char) :=
  match l with
  | '-' :: '-' :: cs => some ([], cs.dropWhile (· ≠ '\n'))
  | _ => none

/-- Matcher deleting `\/\*[\s\S]*?\*\/` (lazy C-style block comments). -/
def mBlockComment (l : List Char) : Option (List Char × List Char) :=
  match l with
  | '/' :: '*' :: cs => (scanUntil ['*', '/'] cs).map (fun p => ([], p.2))
  | _ => none

/-- Matcher deleting `\/\/[^\n]*` or `\/\/.*$` (line comments). -/
def mLineComment2 (l : List Char) : Option (List Char × List Char) :=
  match l with
  | '/' :: '/' :: cs => some ([], cs.dropWhile (· ≠ '\n'))
  | _ => none

/-- Matcher deleting `(?<![_a-zA-Z0-9])#[^\n]*` — a hash comment whose
preceding character is not a word character (Bash and Perl). -/
def mHashComment (prev : Option Char) (l : List Char) :
    Option (List Char × List Char × Option Char) :=
  match l with
  | '#' :: cs =>
    match prev with
    | some p => if wordChar p then none
                else some ([], cs.dropWhile (· ≠ '\n'), some ((cs.takeWhile (· ≠ '\n')).getLastD '#'))
    | none => some ([], cs.dropWhile (· ≠ '\n'), some ((cs.takeWhile (· ≠ '\n')).getLastD '#'))
  | _ => none

/-- `line.split('\n')`. -/
def splitNl (l : List Char) : List (List Char) := l.splitOn '\n'

/-- `lines.join('\n')`. -/
def joinNl (ls : List (List Char)) : List Char := List.intercalate ['\n'] ls

/-- `String.prototype.trimEnd` over the ASCII whitespace model. -/
def trimR (l : List Char) : List Char := (l.reverse.dropWhile wsChar).reverse

/-- `String.prototype.trim` over the ASCII whitespace model. -/
def trim (l : List Char) : List Char := (l.dropWhile wsChar).reverse.dropWhile wsChar |>.reverse

/-- BaseObfuscator.removeSingleLineComments: per line, if the comment
marker occurs and the quote counts to its left are both even, the line is
cut there and right-trimmed; lines left blank are dropped. -/
def rmSingleLine (marker code : List Char) : List Char :=
  joinNl (((splitNl code).map (fun line =>
    match idxOf marker line with
    | some i =>
      let before := line.take i
      if before.count '\'' % 2 = 0 ∧ before.count '"' % 2 = 0 then trimR (line.take i)
      else line
    | none => line)).filter (fun l => trim l ≠ []))

/-- Fueled loop of BaseObfuscator.removeMultiLineComments. -/
def rmMultiGo (s e : List Char) : Nat → List Char → List Char
  | 0, code => code
  | f + 1, code =>
    match idxOf s code with
    | none => code
    | some i =>
      match idxOf e (code.drop i) with
      | none => code
      | some j => rmMultiGo s e f (code.take i ++ code.drop (i + j + e.length))

/-- BaseObfuscator.removeMultiLineComments: repeatedly delete from the
first occurrence of `s` through the next occurrence of `e`. -/
def rmMulti (s e code : List Char) : List Char := rmMultiGo s e code.length code

/-- UTF-8 bytes of one code point. -/
def utf8Char (c : Char) : List Nat :=
  let n := c.toNat
  if n < 0x80 then [n]
  else if n < 0x800 then [0xc0 + n / 64, 0x80 + n % 64]
  else if n < 0x10000 then [0xe0 + n / 4096, 0x80 + n / 64 % 64, 0x80 + n % 64]
  else [0xf0 + n / 262144, 0x80 + n / 4096 % 64, 0x80 + n / 64 % 64, 0x80 + n % 64]

/-- `new TextEncoder().encode(s)`: UTF-8 bytes of the string. -/
def utf8 (l : List Char) : List Nat := l.flatMap utf8Char

/-- The base64 alphabet. -/
def b64Char (n : Nat) : Char :=
  if n < 26 then Char.ofNat (65 + n)
  else if n < 52 then Char.ofNat (97 + (n - 26))
  else if n < 62 then Char.ofNat (48 + (n - 52))
  else if n = 62 then '+' else '/'

/-- `btoa` on a byte sequence. -/
def b64 : List Nat → List Char
  | [] => []
  | [a] => [b64Char (a / 4), b64Char (a % 4 * 16), '=', '=']
  | [a, b] => [b64Char (a / 4), b64Char (a % 4 * 16 + b / 16), b64Char (b % 16 * 4), '=']
  | a :: b :: c :: r =>
    b64Char (a / 4) :: b64Char (a % 4 * 16 + b / 16) ::
      b64Char (b % 16 * 4 + c / 64) :: b64Char (c % 64) :: b64 r

/-- Association list standing for a JavaScript `Map` (preserves insertion
order, as `Map.forEach` iterates in insertion order). -/
abbrev VarMap := List (List Char × List Char)

/-- Word-boundary test of JavaScript regexes: a boundary lies between two
positions iff exactly one of the adjacent characters is a word character
(`none` stands for the start or end of the input). -/
def bnd : Option Char → Option Char → Bool
  | none, none => false
  | none, some b => wordChar b
  | some a, none => wordChar a
  | some a, some b => wordChar a != wordChar b

/-- Matcher for `new RegExp('\\b' + w + '\\b', 'g')` rewriting to `rep`
(whole-word renaming used by every handler).  The generated names contain
no `$`, so the string replacement is literal. -/
def mWord (w rep : List Char) (prev : Option Char) (l : List Char) :
    Option (List Char × List Char × Option Char) :=
  if w ≠ [] ∧ w.isPrefixOf l ∧ bnd prev l.head? = true ∧
      bnd (some (w.getLastD ' ')) (l.drop w.length).head? = true then
    some (rep, l.drop w.length, some (w.getLastD ' '))
  else none

/-- Whole-word global replace `result.replace(/\bw\b/g, rep)`. -/
def wordRep (w rep text : List Char) : List Char := gsubP (mWord w rep) text

/-- Matcher for a declaration pattern `\bkw\s+(ident)` with configurable
identifier character classes (`[a-zA-Z_]`-style for most languages,
`$`-inclusive for JavaScript): returns the captured identifier and the
rest after the whole match. -/
def mKwIdent (st ct : Char → Bool) (kw : List Char) (prev : Option Char) (l : List Char) :
    Option (List Char × List Char × Option Char) :=
  if bnd prev l.head? = true ∧ kw.isPrefixOf l then
    let r1 := l.drop kw.length
    let ws := r1.takeWhile wsChar
    let r2 := r1.dropWhile wsChar
    if ws ≠ [] then
      match r2 with
      | c :: cs =>
        if st c then
          let nm := c :: cs.takeWhile ct
          some (nm, cs.dropWhile ct, some (nm.getLastD c))
        else none
      | [] => none
    else none
  else none

/-- Try a list of declaration keywords in alternation order. -/
def mKwIdentAny (st ct : Char → Bool) (kws : List (List Char)) (prev : Option Char)
    (l : List Char) : Option (List Char × List Char × Option Char) :=
  kws.findSome? (fun kw => mKwIdent st ct kw prev l)

/-- Fueled scan collecting, in order, every identifier captured by a
`regex.exec` loop over a declaration pattern. -/
def scanKwGo (M : Option Char → List Char → Option (List Char × List Char × Option Char)) :
    Nat → Option Char → List Char → List (List Char)
  | 0, _, _ => []
  | _ + 1, _, [] => []
  | f + 1, prev, c :: cs =>
    match M prev (c :: cs) with
    | some (nm, rest, np) => nm :: scanKwGo M f np rest
    | none => scanKwGo M f (some c) cs

/-- All identifiers captured by the declaration pattern over the text. -/
def scanIdents (kw : List Char) (text : List Char) : List (List Char) :=
  scanKwGo (mKwIdent identStart identChar kw) text.length none text

/-- Fueled scan collecting every capture of a prev-independent matcher
(`regex.exec` loops whose pattern has no boundary assertions). -/
def scanAll (M : List Char → Option (List Char × List Char)) :
    Nat → List Char → List (List Char)
  | 0, _ => []
  | _ + 1, [] => []
  | f + 1, c :: cs =>
    match M (c :: cs) with
    | some (x, rest) => x :: scanAll M f rest
    | none => scanAll M f cs

/-- Does one of the words occur with word boundaries on both sides
(`\b(w|…)\b.test`)? -/
def hasWordIn (ws : List (List Char)) : Option Char → List Char → Bool
  | _, [] => false
  | prev, c :: cs =>
    (ws.any (fun w =>
      w.isPrefixOf (c :: cs) && bnd prev (some c) &&
      bnd (some (w.getLastD ' ')) ((c :: cs).drop w.length).head?)) ||
    hasWordIn ws (some c) cs

/-- Extend a variable map with newly discovered names: reserved words and
already-mapped names are skipped, new names get the next generated name
(`gen k` receives the number of names generated so far). -/
def addNames (rsv : List (List Char)) (gen : Nat → List Char)
    (names : List (List Char)) (m : VarMap) : VarMap :=
  names.foldl (fun m n =>
    if n ∈ rsv ∨ (List.lookup n m).isSome then m else m ++ [(n, gen m.length)]) m

/-- Apply every entry of a variable map as a whole-word replacement, in
insertion order (`varMap.forEach`). -/
def applyMap (m : VarMap) (text : List Char) : List Char :=
  m.foldl (fun t p => wordRep p.1 p.2 t) text

/-- Matcher for `\s*(c)\s*` rewriting to `$1`, for `c` drawn from a
punctuation set (minifier compaction rules). -/
def mPunct (punct : List Char) (l : List Char) : Option (List Char × List Char) :=
  match l.dropWhile wsChar with
  | c :: r2 => if c ∈ punct then some ([c], r2.dropWhile wsChar) else none
  | [] => none

/-- Matcher for `\s+` rewriting to a single space. -/
def mWsRun (l : List Char) : Option (List Char × List Char) :=
  match l with
  | c :: cs => if wsChar c then some ([' '], cs.dropWhile wsChar) else none
  | [] => none

/-- Matcher for `\b(kw…)\b(?=[^\s])` rewriting to `kw ` (the minifiers
re-insert one space after a keyword glued to the next token). -/
def mKwSpace (kws : List (List Char)) (prev : Option Char) (l : List Char) :
    Option (List Char × List Char × Option Char) :=
  if bnd prev l.head? = true then
    (kws.filter (fun kw =>
        kw.isPrefixOf l && bnd (some (kw.getLastD ' ')) (l.drop kw.length).head? &&
        match (l.drop kw.length).head? with
        | some d => !wsChar d
        | none => false)).head?.map
      (fun kw => (kw ++ [' '], l.drop kw.length, some (kw.getLastD ' ')))
  else none

/-! ## Lua handler (LuaObfuscator) -/

/-- Lua placeholder `` `___LUASTR_${strIdx}_PLACEHOLDER___` ``. -/
def phLua (i : Nat) : List Char :=
  "___LUASTR_".data ++ natChars i ++ "_PLACEHOLDER___".data

/-- LuaObfuscator steps 1: long-bracket strings, then quoted strings,
each replaced by an indexed placeholder. -/
def luaExtract (code : List Char) : List Char × List (List Char) :=
  let p1 := extract mLuaBracket phLua 0 code
  let p2 := extract mQuote2 phLua p1.2.length p1.1
  (p2.1, p1.2 ++ p2.2)

/-- LuaObfuscator step 2: remove `--[[ ]]` comments, then `--` line
comments. -/
def luaComments (code : List Char) : List Char :=
  gsub mLuaLineComment (gsub mLuaMultiComment code)

/-- Reserved words of the Lua handler. -/
def luaReserved : List (List Char) :=
  (["and", "break", "do", "else", "elseif", "end", "false", "for", "function",
    "goto", "if", "in", "local", "nil", "not", "or", "repeat", "return", "then",
    "true", "until", "while", "print", "pairs", "ipairs", "next", "type", "tostring",
    "tonumber", "error", "assert", "pcall", "xpcall", "require", "module", "setmetatable",
    "getmetatable", "rawget", "rawset", "rawequal", "select", "unpack", "table",
    "string", "math"] : List String).map String.data

/-- LuaObfuscator.renameIdentifiers: discover `function NAME` then
`local NAME` declarations, then substitute whole words in insertion
order.  Returns the renamed text and the built map. -/
def luaRename (ν : Nat → List Char) (code : List Char) : List Char × VarMap :=
  let names := scanIdents "function".data code ++ scanIdents "local".data code
  let m := addNames luaReserved (fun k => '_' :: ν k) names []
  (applyMap m code, m)

/-- LuaObfuscator.injectDeadCode: after every nonblank line that is not a
comment, insert `local _ = nil` when the random draw fires. -/
def luaInject (ρ : Nat → Bool) (code : List Char) : List Char :=
  joinNl (((splitNl code).enum).flatMap (fun p =>
    if ρ p.1 && !(trim p.2).isEmpty && !("--".data.isPrefixOf (trim p.2)) then
      [p.2, "local _ = nil".data]
    else [p.2]))

/-- `/\b(end|then|do)\s*$/.test(line)`. -/
def luaEndsKw (line : List Char) : Bool :=
  let r := trimR line
  (["end", "then", "do"] : List String).any (fun kw =>
    kw.data.isSuffixOf r &&
    bnd ((r.take (r.length - kw.length)).getLast?) (some (kw.data.headD ' ')))

/-- Test of the Lua inline-comment pattern: some whitespace character
followed by two dashes. -/
def hasWsDashDash : List Char → Bool
  | a :: b :: c :: r => (wsChar a && b = '-' && c = '-') || hasWsDashDash (b :: c :: r)
  | _ => false

/-- The compaction phase both Lua minifier branches share:
`\s*([,=])\s*` → `$1`, then keyword re-spacing. -/
def luaCompress (line : List Char) : List Char :=
  gsubP (mKwSpace ((["function", "local", "if", "then", "else", "end", "for",
      "while", "do", "return"] : List String).map String.data))
    (gsub (mPunct [',', '=']) line)

/-- LuaObfuscator.minifyCode. -/
def luaMinify (code : List Char) : List Char :=
  let lines := ((splitNl code).map trim).filter (fun l => l ≠ [])
  let parts := (lines.enum).map (fun p =>
    let line := gsub mWsRun p.2
    let isFull := "--".data.isPrefixOf line
    let hasInline := !isFull && hasWsDashDash line
    let nextIsComment := match lines.get? (p.1 + 1) with
      | some nl => "--".data.isPrefixOf (trim nl)
      | none => false
    if isFull || hasInline || nextIsComment then line ++ ['\n']
    else if p.1 = lines.length - 1 then line
    else if luaEndsKw line then line ++ [' ']
    else line ++ [' '])
  let result := parts.flatten
  let processed := (splitNl result).map (fun line =>
    if "--".data.isPrefixOf (trim line) then line
    else
      match idxOf " --".data line with
      | some i =>
        if 0 < i then luaCompress (line.take i) ++ line.drop i
        else luaCompress line
      | none => luaCompress line)
  trim (joinNl processed)

/-- The per-literal restore step of LuaObfuscator step 6. -/
def luaRepl (o : Opts) (orig : List Char) : List Char :=
  if ¬ "[[".data.isPrefixOf orig then
    let content := (orig.drop 1).dropLast
    if 0 < content.length ∧ content.length < 100 then
      if o.hexEncoding ∧ o.encodeStrings then
        '"' :: content.flatMap (fun c => '\\' :: 'x' :: padZero 2 (hexChars c.toNat)) ++ ['"']
      else orig
    else orig
  else orig

/-- LuaObfuscator.obfuscate.  `inst` is the handler instance's `varMap`,
cleared on entry (`this.varMap.clear()`); `ν` abstracts the random name
generator, `ρ` the per-line dead-code draws. -/
def luaObfuscate (_inst : VarMap) (o : Opts) (ν : Nat → List Char)
    (ρ : Nat → Bool) (code : List Char) : List Char :=
  let e := luaExtract code
  let r2 := if o.removeComments then luaComments e.1 else e.1
  let r3 := if o.renameVariables then (luaRename ν r2).1 else r2
  let r4 := if o.deadCodeInjection then luaInject ρ r3 else r3
  let r5 := if minifyOn o then luaMinify r4 else r4
  (e.2.enum).foldl (fun t p => replaceAll (phLua p.1) (luaRepl o p.2) t) r5

/-! ## JavaScript handler (JavaScriptObfuscator) -/

/-- JavaScript identifier start `[a-zA-Z_$]`. -/
def jsIdStart (c : Char) : Bool := identStart c || c = '$'

/-- JavaScript identifier continuation `[a-zA-Z0-9_$]`. -/
def jsIdChar (c : Char) : Bool := identChar c || c = '$'

/-- JavaScript placeholder `` `__JSSTR${strIdx}__` ``. -/
def phJs (i : Nat) : List Char := "__JSSTR".data ++ natChars i ++ "__".data

/-- JavaScriptObfuscator step 2: template literals, then double- or
single-quoted literals. -/
def jsExtract (code : List Char) : List Char × List (List Char) :=
  let p1 := extract (matchQ '`') phJs 0 code
  let p2 := extract mQuote2 phJs p1.2.length p1.1
  (p2.1, p1.2 ++ p2.2)

/-- Reserved words of the JavaScript handler. -/
def jsReserved : List (List Char) :=
  (["break", "case", "catch", "continue", "debugger", "default", "delete",
    "do", "else", "finally", "for", "function", "if", "in", "instanceof",
    "new", "return", "switch", "this", "throw", "try", "typeof", "var",
    "void", "while", "with", "class", "const", "enum", "export", "extends",
    "import", "super", "implements", "interface", "let", "package", "private",
    "protected", "public", "static", "yield", "true", "false", "null",
    "undefined", "NaN", "Infinity", "console", "window", "document",
    "Math", "JSON", "Array", "Object", "String", "Number", "Boolean",
    "Date", "RegExp", "Error", "Promise", "Map", "Set", "Symbol",
    "arguments", "eval", "async", "await", "of", "atob", "btoa",
    "TextEncoder", "TextDecoder", "Uint8Array", "Function", "parseInt",
    "parseFloat", "isNaN", "isFinite", "decodeURI", "encodeURI",
    "decodeURIComponent", "encodeURIComponent", "escape", "unescape"] :
    List String).map String.data

/-- Matcher for `:\s*\w+(\[\])?\s*(?=[,)=])` (parameter type
annotations), deleted without consuming the lookahead. -/
def mTsAnn1 (l : List Char) : Option (List Char × List Char) :=
  match l with
  | ':' :: r =>
    let r1 := r.dropWhile wsChar
    let w := r1.takeWhile wordChar
    if w = [] then none
    else
      let r2 := r1.dropWhile wordChar
      let r3 := if "[]".data.isPrefixOf r2 then r2.drop 2 else r2
      let r4 := r3.dropWhile wsChar
      match r4.head? with
      | some c => if c = ',' ∨ c = ')' ∨ c = '=' then some ([], r4) else none
      | none => none
  | _ => none

/-- Matcher for `\)\s*:\s*\w+(\[\])?\s*\{` → `) {` (return type
annotations). -/
def mTsAnn2 (l : List Char) : Option (List Char × List Char) :=
  match l with
  | ')' :: r =>
    match r.dropWhile wsChar with
    | ':' :: r1 =>
      let r2 := r1.dropWhile wsChar
      let w := r2.takeWhile wordChar
      if w = [] then none
      else
        let r3 := r2.dropWhile wordChar
        let r4 := if "[]".data.isPrefixOf r3 then r3.drop 2 else r3
        match r4.dropWhile wsChar with
        | '{' :: r5 => some ([')', ' ', '{'], r5)
        | _ => none
    | _ => none
  | _ => none

/-- Matcher for `:\s*\w+(\[\])?\s*=` → ` =` (variable type
annotations). -/
def mTsAnn3 (l : List Char) : Option (List Char × List Char) :=
  match l with
  | ':' :: r =>
    let r1 := r.dropWhile wsChar
    let w := r1.takeWhile wordChar
    if w = [] then none
    else
      let r2 := r1.dropWhile wordChar
      let r3 := if "[]".data.isPrefixOf r2 then r2.drop 2 else r2
      match r3.dropWhile wsChar with
      | '=' :: r4 => some ([' ', '='], r4)
      | _ => none
  | _ => none

/-- Matcher capturing the parameter list of
`function\s*[a-zA-Z_$]*\s*\(([^)]*)\)`. -/
def mFuncParams (l : List Char) : Option (List Char × List Char) :=
  if "function".data.isPrefixOf l then
    let r1 := (l.drop 8).dropWhile wsChar
    let r2 := r1.dropWhile jsIdStart
    match r2.dropWhile wsChar with
    | '(' :: r4 =>
      let ps := r4.takeWhile (· ≠ ')')
      match r4.dropWhile (· ≠ ')') with
      | ')' :: r5 => some (ps, r5)
      | _ => none
    | _ => none
  else none

/-- Matcher capturing the parameter list of `\(([^)]*)\)\s*=>`. -/
def mArrowParams (l : List Char) : Option (List Char × List Char) :=
  match l with
  | '(' :: r =>
    let ps := r.takeWhile (· ≠ ')')
    match r.dropWhile (· ≠ ')') with
    | ')' :: r2 =>
      match r2.dropWhile wsChar with
      | '=' :: '>' :: r3 => some (ps, r3)
      | _ => none
    | _ => none
  | _ => none

/-- `match[1].split(',').map(p => p.trim().split('=')[0].trim())`. -/
def paramNames (s : List Char) : List (List Char) :=
  (s.splitOn ',').map (fun p => trim ((trim p).takeWhile (· ≠ '=')))

/-- JavaScriptObfuscator.renameIdentifiers: strip TypeScript-style
annotations, discover declarations and parameters, then substitute whole
words in insertion order. -/
def jsRename (ν : Nat → List Char) (code : List Char) : List Char :=
  let r0 := gsub mTsAnn3 (gsub mTsAnn2 (gsub mTsAnn1 code))
  let declNames := scanKwGo
    (mKwIdentAny jsIdStart jsIdChar
      ((["var", "let", "const", "function"] : List String).map String.data))
    r0.length none r0
  let funcParams := ((scanAll mFuncParams r0.length r0).map paramNames).flatten
  let arrowParams := ((scanAll mArrowParams r0.length r0).map paramNames).flatten
  let m0 := addNames jsReserved ν declNames []
  let m1 := addNames jsReserved ν (funcParams ++ arrowParams) m0
  applyMap m1 r0

/-- `/\b(return|throw|break|continue)\b/.test(trimmed)`. -/
def hasTerminator (l : List Char) : Bool :=
  hasWordIn ((["return", "throw", "break", "continue"] : List String).map String.data) none l

/-- The three dead snippets of JavaScriptObfuscator.injectDeadCodeSafe. -/
def jsDeadSnippets : List (List Char) :=
  ["void 0;".data, "(function()\x7b\x7d)();".data, "!1;".data]

/-- JavaScriptObfuscator.injectDeadCodeSafe, with each emitted line
tagged `true` when it is an injected dead snippet.  `ρ k` abstracts the
`Math.random() < 0.15` draw at the `k`-th input line, `π k` the snippet
pick. -/
def jsInjectAnn (ρ : Nat → Bool) (π : Nat → Nat) (code : List Char) :
    List (List Char × Bool) :=
  ((splitNl code).enum).flatMap (fun p =>
    let trimmed := trim p.2
    if ρ p.1 && (List.isSuffixOf [';'] trimmed || List.isSuffixOf ['}'] trimmed) &&
        !hasTerminator trimmed then
      [(p.2, false), (jsDeadSnippets.getD (π p.1 % 3) [], true)]
    else [(p.2, false)])

/-- JavaScriptObfuscator.injectDeadCodeSafe. -/
def jsInject (ρ : Nat → Bool) (π : Nat → Nat) (code : List Char) : List Char :=
  joinNl ((jsInjectAnn ρ π code).map (·.1))

/-- Matcher for `/  +/` → a single space. -/
def mDblSpace (l : List Char) : Option (List Char × List Char) :=
  match l with
  | ' ' :: ' ' :: cs => some ([' '], cs.dropWhile (· = ' '))
  | _ => none

/-- Matcher for `/\n\s*/` → a single space. -/
def mNlWs (l : List Char) : Option (List Char × List Char) :=
  match l with
  | '\n' :: cs => some ([' '], cs.dropWhile wsChar)
  | _ => none

/-- Matcher for `;+` → `;`. -/
def mSemis (l : List Char) : Option (List Char × List Char) :=
  match l with
  | ';' :: cs => some ([';'], cs.dropWhile (· = ';'))
  | _ => none

/-- The punctuation class of the JavaScript minifier. -/
def jsPunct : List Char :=
  ['{', '}', ';', ',', '(', ')', '=', '+', '-', '*', '/', '<', '>', '!', '&', '|', '?', ':']

/-- The keyword list of the JavaScript minifier re-spacing rule. -/
def jsMinKws : List (List Char) :=
  (["var", "let", "const", "function", "return", "throw", "new", "typeof", "if",
    "else", "for", "while", "do", "switch", "case", "break", "continue", "try",
    "catch", "finally"] : List String).map String.data

/-- JavaScriptObfuscator.minifyCode. -/
def jsMinify (code : List Char) : List Char :=
  let r1 := gsub mLineComment2 code
  let r2 := gsub mBlockComment r1
  let r3 := gsub mDblSpace r2
  let r4 := gsub mNlWs r3
  let r5 := gsub (mPunct jsPunct) r4
  let r6 := gsubP (mKwSpace jsMinKws) r5
  let r7 := gsub mSemis r6
  let r8 := gsub mWsRun r7
  trim r8

/-- The per-literal restore step of JavaScriptObfuscator step 4. -/
def jsRepl (o : Opts) (orig : List Char) : List Char :=
  if orig.head? = some '`' then orig
  else
    let content := (orig.drop 1).dropLast
    if 0 < content.length ∧ content.length < 100 then
      if o.base64Strings then
        "(new TextDecoder().decode(Uint8Array.from(atob(\"".data ++ b64 (utf8 content) ++
          "\"),c=>c.charCodeAt(0))))".data
      else if o.hexEncoding ∧ o.encodeStrings then
        '"' :: content.flatMap (fun c =>
          if 31 < c.toNat ∧ c.toNat < 128 then '\\' :: 'x' :: padZero 2 (hexChars c.toNat)
          else [c]) ++ ['"']
      else if o.unicodeEscape ∧ o.encodeStrings then
        '"' :: content.flatMap (fun c =>
          if 31 < c.toNat ∧ c.toNat < 128 then '\\' :: 'u' :: padZero 4 (hexChars c.toNat)
          else [c]) ++ ['"']
      else orig
    else orig

/-- JavaScript float printing of `n / 2` (always an integer or a `.5`). -/
def halfRepr (n : Nat) : List Char :=
  if n % 2 = 0 then natChars (n / 2) else natChars (n / 2) ++ ".5".data

/-- Matcher hex-encoding a whole quoted literal (applyHighObfuscation). -/
def mHexAllStr (l : List Char) : Option (List Char × List Char) :=
  (mQuote2 l).map (fun p =>
    ('"' :: ((p.1.drop 1).dropLast.flatMap
        (fun c => '\\' :: 'x' :: padZero 2 (hexChars c.toNat))) ++ ['"'], p.2))

/-- JavaScriptObfuscator.applyHighObfuscation. -/
def jsApplyHigh (code : List Char) : List Char :=
  let processed := gsub mHexAllStr (jsMinify code)
  "(function()\x7bvar d=new Date();debugger;if(new Date()-d>50)while(1)\x7b\x7d\x7d)();".data ++
    processed

/-- One synthesized decoder function of applyExtremeObfuscation. -/
def jsDecoder (i key : Nat) (s : List Char) : List Char :=
  let chars := (s.drop 1).dropLast.map Char.toNat
  let encoded := (chars.enum).map (fun p => (p.2 ^^^ (key + p.1)) % 256)
  "function _0x".data ++ hexChars i ++ "()\x7bvar a=[".data ++
    (List.intercalate [','] (encoded.map natChars)) ++
    "],s='';for(var i=0;i<a.length;i++)s+=String.fromCharCode(a[i]^(".data ++
    natChars key ++
    "+i));return s;\x7d".data

/-- JavaScriptObfuscator.applyExtremeObfuscation.  `π i` abstracts the
XOR-key draw for the `i`-th extracted string. -/
def jsApplyExtreme (π : Nat → Nat) (code : List Char) : List Char :=
  let minified := jsMinify code
  let pe := extract mQuote2 (fun i => "_0x".data ++ hexChars i ++ "()".data) 0 minified
  let decoders := ((pe.2.enum).map (fun p => jsDecoder p.1 (π p.1 % 50 + 10) p.2)).flatten
  "(function()\x7bvar t=0;setInterval(function()\x7bvar s=Date.now();debugger;t+=(Date.now()-s>100)?1:0;if(t>2)while(1)\x7b\x7d\x7d,100)\x7d)();".data ++
    "(function()\x7btry\x7bvar f=arguments.callee.toString();if(f.length<".data ++
    halfRepr pe.1.length ++
    ")while(1)\x7b\x7d\x7dcatch(e)\x7b\x7d\x7d)();".data ++
    decoders ++ pe.1

/-- JavaScriptObfuscator.obfuscate. -/
def jsObfuscate (o : Opts) (ν : Nat → List Char) (ρ : Nat → Bool) (π : Nat → Nat)
    (code : List Char) : List Char :=
  let r1 := if o.removeComments then rmSingleLine "//".data (rmMulti "/*".data "*/".data code)
            else code
  let e := jsExtract r1
  let r3 := if o.renameVariables then jsRename ν e.1 else e.1
  let r4 := (e.2.enum).foldl (fun t p => replaceFirst (phJs p.1) (jsRepl o p.2) t) r3
  let r5 := if o.deadCodeInjection then jsInject ρ π r4 else r4
  if o.intensity = .extreme then jsApplyExtreme π r5
  else if o.intensity = .high then jsApplyHigh r5
  else if o.minify then jsMinify r5
  else r5

/-! ## Bash handler (BashObfuscator) -/

/-- Bash placeholder `` `___BASHSTR_${strIdx}_PLACEHOLDER___` ``. -/
def phBash (i : Nat) : List Char :=
  "___BASHSTR_".data ++ natChars i ++ "_PLACEHOLDER___".data

/-- Reserved words of the Bash handler. -/
def bashReserved : List (List Char) :=
  (["if", "then", "else", "elif", "fi", "case", "esac", "for", "while", "until",
    "do", "done", "in", "function", "select", "time", "coproc", "echo", "printf",
    "read", "exit", "return", "break", "continue", "declare", "local", "export",
    "readonly", "unset", "shift", "set", "trap", "eval", "exec", "source",
    "true", "false"] : List String).map String.data

/-- BashObfuscator step 1: single-quoted (`'[^']*'`, no escapes) then
double-quoted literals. -/
def bashExtract (code : List Char) : List Char × List (List Char) :=
  let p1 := extract mSingleNoEsc phBash 0 code
  let p2 := extract (matchQ '"') phBash p1.2.length p1.1
  (p2.1, p1.2 ++ p2.2)

/-- Matcher for the assignment pattern `\b([a-zA-Z_][a-zA-Z0-9_]*)=`. -/
def mBashAssign (prev : Option Char) (l : List Char) :
    Option (List Char × List Char × Option Char) :=
  if bnd prev l.head? = true then
    match l with
    | c :: cs =>
      if identStart c then
        let nm := c :: cs.takeWhile identChar
        match cs.dropWhile identChar with
        | '=' :: r2 => some (nm, r2, some '=')
        | _ => none
      else none
    | [] => none
  else none

/-- Matcher for `` `\$\{?${oldName}\}?` `` rewriting to `` `$${newName}` ``
(the identifier-occurrence form of Bash renaming; note the missing brace
balance check of the source pattern). -/
def mDollarName (nm rep : List Char) (l : List Char) : Option (List Char × List Char) :=
  match l with
  | '$' :: r =>
    let r1 := if r.head? = some '{' then r.drop 1 else r
    if nm.isPrefixOf r1 then
      let r2 := r1.drop nm.length
      some (rep, if r2.head? = some '}' then r2.drop 1 else r2)
    else none
  | _ => none

/-- BashObfuscator.renameIdentifiers: discover `name=` assignments, then
substitute each entry as a whole word and as a `$`-reference.  Returns
the renamed text and the map (the instance `varMap`, needed again during
string restoration). -/
def bashRename (ν : Nat → List Char) (code : List Char) : List Char × VarMap :=
  let names := scanKwGo mBashAssign code.length none code
  let m := addNames bashReserved (fun k => '_' :: ν k) names []
  (m.foldl (fun t p => gsub (mDollarName p.1 ('$' :: p.2)) (wordRep p.1 p.2 t)) code, m)

/-- BashObfuscator.injectDeadCode: insert `:` after nonblank non-comment
lines when the draw fires. -/
def bashInject (ρ : Nat → Bool) (code : List Char) : List Char :=
  joinNl (((splitNl code).enum).flatMap (fun p =>
    if ρ p.1 && !(trim p.2).isEmpty && !("#".data.isPrefixOf (trim p.2)) then
      [p.2, [':']]
    else [p.2]))

/-- Test of the Bash inline-comment pattern: a whitespace character
followed by a hash. -/
def hasWsHash : List Char → Bool
  | a :: b :: r => (wsChar a && b = '#') || hasWsHash (b :: r)
  | _ => false

/-- `/\b(then|do|else|elif)\s*$/.test(line) || line.endsWith('{')`. -/
def bashNeedsNl (line : List Char) : Bool :=
  (let r := trimR line
   (["then", "do", "else", "elif"] : List String).any (fun kw =>
     kw.data.isSuffixOf r &&
     bnd ((r.take (r.length - kw.length)).getLast?) (some (kw.data.headD ' ')))) ||
  List.isSuffixOf ['{'] line

/-- BashObfuscator.minifyCode. -/
def bashMinify (code : List Char) : List Char :=
  let lines := ((splitNl code).map trim).filter (fun l => l ≠ [])
  let parts := (lines.enum).map (fun p =>
    let line := gsub mWsRun p.2
    let isFull := "#".data.isPrefixOf line
    let hasInline := !isFull && hasWsHash line
    let nextIsComment := match lines.get? (p.1 + 1) with
      | some nl => "#".data.isPrefixOf (trim nl)
      | none => false
    if isFull || hasInline || nextIsComment then line ++ ['\n']
    else if p.1 = lines.length - 1 then line
    else if bashNeedsNl line then line ++ ['\n']
    else line ++ [';'])
  let result := parts.flatten
  let processed := (splitNl result).map (fun line =>
    if "#".data.isPrefixOf (trim line) then line
    else
      match idxOf " #".data line with
      | some i => if 0 < i then line.take i ++ line.drop i else line
      | none => line)
  let r := gsub mSemis (joinNl processed)
  let rv := r.reverse.dropWhile wsChar
  trim (if rv.head? = some ';' then (rv.drop 1).reverse else r)

/-- `/\$[a-zA-Z_{]/.test(content)` — Bash interpolation test. -/
def hasDollarInterp : List Char → Bool
  | '$' :: c :: r => (identStart c || c = '{') || hasDollarInterp (c :: r)
  | _ :: r => hasDollarInterp r
  | [] => false

/-- Matcher for `\$\{?([a-zA-Z_][a-zA-Z0-9_]*)\}?` with the Bash
restore callback: a mapped name is rewritten to `${new}` or `$new`
according to whether the match contains `{`; unmapped names stay. -/
def mInterpBash (vm : VarMap) (l : List Char) : Option (List Char × List Char) :=
  match l with
  | '$' :: r =>
    let braced := r.head? = some '{'
    let r1 := if braced then r.drop 1 else r
    match r1 with
    | c :: cs =>
      if identStart c then
        let nm := c :: cs.takeWhile identChar
        let r2 := cs.dropWhile identChar
        let closeBr := r2.head? = some '}'
        let r3 := if closeBr then r2.drop 1 else r2
        let matched := '$' :: (if braced then ['{'] else []) ++ nm ++
          (if closeBr then ['}'] else [])
        match List.lookup nm vm with
        | some nw =>
          some ((if braced then '$' :: '{' :: nw ++ ['}'] else '$' :: nw), r3)
        | none => some (matched, r3)
      else none
    | [] => none
  | _ => none

/-- The per-literal restore step of BashObfuscator step 6. -/
def bashRepl (o : Opts) (vm : VarMap) (orig : List Char) : List Char :=
  let quote := orig.headD ' '
  let content := (orig.drop 1).dropLast
  let hasInterp := quote = '"' && hasDollarInterp content
  if hasInterp ∧ o.renameVariables then gsub (mInterpBash vm) orig
  else if ¬ hasInterp ∧ 0 < content.length ∧ content.length < 100 ∧ quote = '"' then
    if o.base64Strings then
      "$(echo '".data ++ b64 (utf8 content) ++ "'|base64 -d)".data
    else if o.hexEncoding ∧ o.encodeStrings then
      '$' :: '\'' :: content.flatMap
        (fun c => '\\' :: 'x' :: padZero 2 (hexChars c.toNat)) ++ ['\'']
    else orig
  else orig

/-- BashObfuscator.obfuscate: split off a newline-terminated shebang,
run the pipeline on the remainder, and prepend the shebang verbatim.
A shebang not followed by a newline is *not* split off (`indexOf`
returns `-1`, so `slice(0, 0)` is empty). -/
def bashObfuscate (_inst : VarMap) (o : Opts) (ν : Nat → List Char)
    (ρ : Nat → Bool) (code : List Char) : List Char :=
  let p := if "#!".data.isPrefixOf code then
      match idxOf ['\n'] code with
      | some i => (code.take (i + 1), code.drop (i + 1))
      | none => ([], code)
    else ([], code)
  let e := bashExtract p.2
  let r2 := if o.removeComments then gsubP mHashComment e.1 else e.1
  let rn := if o.renameVariables then bashRename ν r2 else (r2, [])
  let r4 := if o.deadCodeInjection then bashInject ρ rn.1 else rn.1
  let r5 := if minifyOn o then bashMinify r4 else r4
  p.1 ++ (e.2.enum).foldl (fun t q => replaceAll (phBash q.1) (bashRepl o rn.2 q.2) t) r5

/-! ## Rust handler (RustObfuscator) -/

/-- Rust placeholder `` `___RUSTSTR_${strIdx}_PLACEHOLDER___` ``. -/
def phRust (i : Nat) : List Char :=
  "___RUSTSTR_".data ++ natChars i ++ "_PLACEHOLDER___".data

/-- Reserved words of the Rust handler. -/
def rustReserved : List (List Char) :=
  (["as", "async", "await", "break", "const", "continue", "crate", "dyn", "else",
    "enum", "extern", "false", "fn", "for", "if", "impl", "in", "let", "loop",
    "match", "mod", "move", "mut", "pub", "ref", "return", "self", "Self", "static",
    "struct", "super", "trait", "true", "type", "unsafe", "use", "where", "while",
    "i8", "i16", "i32", "i64", "i128", "isize", "u8", "u16", "u32", "u64", "u128",
    "usize", "f32", "f64", "bool", "char", "str", "String", "Vec", "Option", "Result",
    "Some", "None", "Ok", "Err", "println", "print", "format", "main"] :
    List String).map String.data

/-- Matcher for `r#*"[\s\S]*?"#*` (Rust raw strings, per the source's
sloppy pattern that does not balance hash counts). -/
def mRustRaw (l : List Char) : Option (List Char × List Char) :=
  match l with
  | 'r' :: r =>
    let hs := r.takeWhile (· = '#')
    match r.dropWhile (· = '#') with
    | '"' :: r2 =>
      match scanUntil ['"'] r2 with
      | some q =>
        some ('r' :: hs ++ '"' :: q.1 ++ q.2.takeWhile (· = '#'),
          q.2.dropWhile (· = '#'))
      | none => none
    | _ => none
  | _ => none

/-- RustObfuscator step 1: raw strings, then regular strings. -/
def rustExtract (code : List Char) : List Char × List (List Char) :=
  let p1 := extract mRustRaw phRust 0 code
  let p2 := extract (matchQ '"') phRust p1.2.length p1.1
  (p2.1, p1.2 ++ p2.2)

/-- Lowercase identifier start `[a-z_]` (Rust binding names). -/
def lowerStart (c : Char) : Bool := ('a' ≤ c && c ≤ 'z') || c = '_'

/-- Matcher for `\blet\s+(mut\s+)?([a-z_][a-zA-Z0-9_]*)`, including the
backtracking fallback when the optional `mut` group cannot be followed
by an identifier. -/
def mLetMut (prev : Option Char) (l : List Char) :
    Option (List Char × List Char × Option Char) :=
  if bnd prev l.head? = true ∧ "let".data.isPrefixOf l then
    let r1 := l.drop 3
    if (r1.takeWhile wsChar) ≠ [] then
      let r2 := r1.dropWhile wsChar
      let tryAt : List Char → Option (List Char × List Char × Option Char) := fun s =>
        match s with
        | c :: cs =>
          if lowerStart c then
            let nm := c :: cs.takeWhile identChar
            some (nm, cs.dropWhile identChar, some (nm.getLastD c))
          else none
        | [] => none
      if "mut".data.isPrefixOf r2 ∧ ((r2.drop 3).takeWhile wsChar) ≠ [] then
        match tryAt ((r2.drop 3).dropWhile wsChar) with
        | some x => some x
        | none => tryAt r2
      else tryAt r2
    else none
  else none

/-- RustObfuscator.renameIdentifiers: `fn` names first, then `let`
bindings, then whole-word substitution in insertion order. -/
def rustRename (ν : Nat → List Char) (code : List Char) : List Char :=
  let fns := scanKwGo (mKwIdent lowerStart identChar "fn".data) code.length none code
  let lets := scanKwGo mLetMut code.length none code
  applyMap (addNames rustReserved (fun k => '_' :: ν k) (fns ++ lets) []) code

/-- RustObfuscator.injectDeadCode: insert `let _ = 0;` after lines
ending in `;` when the draw fires — with *no* control-transfer guard. -/
def rustInject (ρ : Nat → Bool) (code : List Char) : List Char :=
  joinNl (((splitNl code).enum).flatMap (fun p =>
    if ρ p.1 && List.isSuffixOf [';'] (trim p.2) then
      [p.2, "let _ = 0;".data]
    else [p.2]))

/-- Test of the Rust inline-comment pattern: whitespace then `//`. -/
def hasWsSlashSlash : List Char → Bool
  | a :: b :: c :: r => (wsChar a && b = '/' && c = '/') || hasWsSlashSlash (b :: c :: r)
  | _ => false

/-- The compaction phase of the Rust minifier. -/
def rustCompress (line : List Char) : List Char :=
  gsubP (mKwSpace ((["fn", "let", "mut", "if", "else", "for", "while", "return",
      "pub", "struct", "impl", "use"] : List String).map String.data))
    (gsub (mPunct [';', ',', '=']) line)

/-- RustObfuscator.minifyCode. -/
def rustMinify (code : List Char) : List Char :=
  let lines := ((splitNl code).map trim).filter (fun l => l ≠ [])
  let parts := (lines.enum).map (fun p =>
    let line := gsub mWsRun p.2
    let isFull := "//".data.isPrefixOf line
    let hasInline := !isFull && hasWsSlashSlash line
    let nextIsComment := match lines.get? (p.1 + 1) with
      | some nl => "//".data.isPrefixOf (trim nl)
      | none => false
    if isFull || hasInline || nextIsComment then line ++ ['\n']
    else if List.isSuffixOf ['}'] line || List.isSuffixOf ['{'] line then line ++ ['\n']
    else if p.1 = lines.length - 1 then line
    else line ++ [' '])
  let processed := (splitNl parts.flatten).map (fun line =>
    if "//".data.isPrefixOf (trim line) then line
    else
      match idxOf " //".data line with
      | some i => if 0 < i then rustCompress (line.take i) ++ line.drop i
                  else rustCompress line
      | none => rustCompress line)
  trim (joinNl processed)

/-- The per-literal restore step of RustObfuscator step 5 (raw strings
are never re-encoded). -/
def rustRepl (o : Opts) (orig : List Char) : List Char :=
  if orig.head? = some 'r' then orig
  else
    let content := (orig.drop 1).dropLast
    if 0 < content.length ∧ content.length < 100 then
      if o.hexEncoding ∧ o.encodeStrings then
        '"' :: content.flatMap (fun c => '\\' :: 'x' :: padZero 2 (hexChars c.toNat)) ++ ['"']
      else orig
    else orig

/-- RustObfuscator.obfuscate (restore happens *before* minification). -/
def rustObfuscate (_inst : VarMap) (o : Opts) (ν : Nat → List Char)
    (ρ : Nat → Bool) (code : List Char) : List Char :=
  let e := rustExtract code
  let r2 := if o.removeComments then gsub mLineComment2 (gsub mBlockComment e.1) else e.1
  let r3 := if o.renameVariables then rustRename ν r2 else r2
  let r4 := if o.deadCodeInjection then rustInject ρ r3 else r3
  let r5 := (e.2.enum).foldl (fun t p => replaceAll (phRust p.1) (rustRepl o p.2) t) r4
  if minifyOn o then rustMinify r5 else r5

/-! ## Perl handler, restore step (PerlObfuscator step 6) -/

/-- `/\$[a-zA-Z_]/.test(content)` — Perl interpolation test. -/
def hasDollarIdent : List Char → Bool
  | '$' :: c :: r => identStart c || hasDollarIdent (c :: r)
  | _ :: r => hasDollarIdent r
  | [] => false

/-- Matcher for `\$([a-zA-Z_][a-zA-Z0-9_]*)` with the Perl restore
callback. -/
def mInterpPerl (vm : VarMap) (l : List Char) : Option (List Char × List Char) :=
  match l with
  | '$' :: c :: cs =>
    if identStart c then
      let nm := c :: cs.takeWhile identChar
      let rest := cs.dropWhile identChar
      match List.lookup nm vm with
      | some nw => some ('$' :: nw, rest)
      | none => some ('$' :: nm, rest)
    else none
  | _ => none

/-- The per-literal restore step of PerlObfuscator step 6 (the base64
branch additionally requires a `use MIME::Base64;` header, tracked by the
caller). -/
def perlRepl (o : Opts) (vm : VarMap) (orig : List Char) : List Char :=
  let quote := orig.headD ' '
  let content := (orig.drop 1).dropLast
  let hasInterp := quote = '"' && hasDollarIdent content
  if hasInterp ∧ o.renameVariables then gsub (mInterpPerl vm) orig
  else if ¬ hasInterp ∧ 0 < content.length ∧ content.length < 100 ∧ quote = '"' then
    if o.base64Strings then
      "decode_base64('".data ++ b64 (utf8 content) ++ "')".data
    else if o.hexEncoding ∧ o.encodeStrings then
      '"' :: content.flatMap (fun c => '\\' :: 'x' :: padZero 2 (hexChars c.toNat)) ++ ['"']
    else orig
  else orig

/-! ## CSS handler (CssObfuscator) -/

/-- `getIntensityMultiplier` of BaseObfuscator. -/
def intensityMult : Intensity → Nat
  | .low => 1 | .medium => 2 | .high => 3 | .extreme => 5

/-- The CSS handler's object-scoped mutable state: its `variableMap` and
its `counter` (inherited from BaseObfuscator and *not* reset by
`obfuscate`, since the map is shared with the HTML handler). -/
structure CssState where
  varMap : VarMap
  counter : Nat
deriving DecidableEq, Repr

/-- The fresh state of a newly constructed handler instance. -/
def cssFresh : CssState := ⟨[], 0⟩

/-- CSS selector-name start `[a-zA-Z_-]`. -/
def cssIdStart (c : Char) : Bool := identStart c || c = '-'

/-- CSS selector-name continuation `[a-zA-Z0-9_-]`. -/
def cssIdChar (c : Char) : Bool := identChar c || c = '-'

/-- Matcher collecting the name of a `.class` or `#id` selector
occurrence. -/
def mSelScan (lead : Char) (l : List Char) : Option (List Char × List Char) :=
  match l with
  | c :: d :: cs =>
    if c = lead ∧ cssIdStart d then
      some (d :: cs.takeWhile cssIdChar, cs.dropWhile cssIdChar)
    else none
  | _ => none

/-- Matcher for `\.name\b` (or `#name\b`) rewriting to the renamed
selector. -/
def mSelRep (lead : Char) (nm rep : List Char) (l : List Char) :
    Option (List Char × List Char) :=
  match l with
  | c :: r =>
    if c = lead ∧ nm.isPrefixOf r ∧
        bnd (some (nm.getLastD ' ')) (r.drop nm.length).head? = true then
      some (lead :: rep, r.drop nm.length)
    else none
  | [] => none

/-- CssObfuscator.generateObfuscatedName: six random look-alike
characters (abstracted by `ν` at the current counter value) followed by
the incremented counter. -/
def cssGenName (ν : Nat → List Char) (ctr : Nat) : List Char :=
  ν ctr ++ natChars (ctr + 1)

/-- CssObfuscator.renameSelectors: collect class then id names into the
*instance* map (new names only), then substitute every entry as `.name`
and `#name`. -/
def cssRename (ν : Nat → List Char) (st : CssState) (code : List Char) :
    List Char × CssState :=
  let cls := scanAll (mSelScan '.') code.length code
  let ids := scanAll (mSelScan '#') code.length code
  let built := (cls ++ ids).foldl (fun (acc : VarMap × Nat) n =>
    if (List.lookup n acc.1).isSome then acc
    else (acc.1 ++ [(n, cssGenName ν acc.2)], acc.2 + 1)) (st.varMap, st.counter)
  (built.1.foldl (fun t p => gsub (mSelRep '#' p.1 p.2) (gsub (mSelRep '.' p.1 p.2) t)) code,
   ⟨built.1, built.2⟩)

/-- The named-colour table of CssObfuscator.obfuscateColors. -/
def cssColors : List (List Char × List Char) :=
  ([("white", "#fff"), ("black", "#000"), ("red", "#f00"), ("green", "#0f0"),
    ("blue", "#00f"), ("yellow", "#ff0"), ("cyan", "#0ff"), ("magenta", "#f0f"),
    ("gray", "#808080"), ("grey", "#808080"), ("orange", "#ffa500"),
    ("purple", "#800080"), ("pink", "#ffc0cb"), ("brown", "#a52a2a"),
    ("silver", "#c0c0c0"), ("gold", "#ffd700"), ("navy", "#000080"),
    ("teal", "#008080")] : List (String × String)).map (fun p => (p.1.data, p.2.data))

/-- Case-insensitive prefix test (regex `i` flag). -/
def ciPrefix (nm l : List Char) : Bool :=
  decide (nm.length ≤ l.length) && ((nm.zip l).all (fun p => p.1.toLower = p.2.toLower))

/-- Matcher for `:\s*name\b` (case-insensitive) rewriting to `:hex`. -/
def mColorOne (nm hex : List Char) (l : List Char) : Option (List Char × List Char) :=
  match l with
  | ':' :: r =>
    let r1 := r.dropWhile wsChar
    if ciPrefix nm r1 &&
        (match (r1.drop nm.length).head? with
         | some d => !wordChar d
         | none => true) then
      some (':' :: hex, r1.drop nm.length)
    else none
  | _ => none

/-- CssObfuscator.obfuscateColors. -/
def cssColorize (code : List Char) : List Char :=
  cssColors.foldl (fun t p => gsub (mColorOne p.1 p.2) t) code

/-- Matcher for `;}` → `}`. -/
def mSemiBrace (l : List Char) : Option (List Char × List Char) :=
  match l with
  | ';' :: '}' :: r => some (['}'], r)
  | _ => none

/-- CssObfuscator.minifyCss. -/
def cssMinify (code : List Char) : List Char :=
  trim (gsub mSemiBrace (gsub (mPunct [','])
    (gsub (mPunct [';']) (gsub (mPunct [':'])
    (gsub (mPunct ['}']) (gsub (mPunct ['{']) (gsub mWsRun code)))))))

/-- The junk-property list of CssObfuscator.addJunkRules. -/
def cssProps : List (List Char) :=
  (["display:none", "visibility:hidden", "opacity:0", "position:absolute",
    "left:-9999px", "width:0", "height:0"] : List String).map String.data

/-- The junk-rule loop of CssObfuscator.addJunkRules: `k` rules, rule
index `i` picking its property via `π`, threading the instance
counter. -/
def cssJunkGo (ν : Nat → List Char) (π : Nat → Nat) : Nat → Nat → Nat → List Char × Nat
  | 0, _, ctr => ([], ctr)
  | k + 1, i, ctr =>
    let nm := cssGenName ν ctr
    let prop := cssProps.getD (π i % 7) []
    let rest := cssJunkGo ν π k (i + 1) (ctr + 1)
    ('.' :: nm ++ '{' :: prop ++ '}' :: rest.1, rest.2)

/-- CssObfuscator.obfuscate.  The instance state flows in and out; note
that, unlike the Lua/Perl/Bash/Rust handlers, nothing clears it. -/
def cssObfuscate (st : CssState) (o : Opts) (ν : Nat → List Char) (π : Nat → Nat)
    (code : List Char) : List Char × CssState :=
  let r1 := if o.removeComments then gsub mBlockComment code else code
  let s2 := if o.renameVariables then cssRename ν st r1 else (r1, st)
  let r3 := if o.encodeStrings then cssColorize s2.1 else s2.1
  let r4 := if minifyOn o then cssMinify r3 else r3
  if o.deadCodeInjection ∧ o.intensity ≠ .low then
    let j := cssJunkGo ν π (intensityMult o.intensity * 2) 0 s2.2.counter
    (r4 ++ j.1, ⟨s2.2.varMap, j.2⟩)
  else (r4, s2.2)

/-! ## Generic handler (GenericObfuscator) -/

/-- Generic placeholder `` `___GENSTR_${strIdx}___` ``. -/
def phGen (i : Nat) : List Char := "___GENSTR_".data ++ natChars i ++ "___".data

/-- Matcher for `"""[\s\S]*?"""|'''[\s\S]*?'''`. -/
def mTriple (l : List Char) : Option (List Char × List Char) :=
  if "\"\"\"".data.isPrefixOf l then
    (scanUntil "\"\"\"".data (l.drop 3)).map (fun p => ("\"\"\"".data ++ p.1, p.2))
  else if "'''".data.isPrefixOf l then
    (scanUntil "'''".data (l.drop 3)).map (fun p => ("'''".data ++ p.1, p.2))
  else none

/-- GenericObfuscator step 1: triple-quoted, backtick, double-quoted,
single-quoted literals, each recorded with its quote tag. -/
def genExtract (code : List Char) : List Char × List (List Char × List Char) :=
  let p1 := extract mTriple phGen 0 code
  let p2 := extract (matchQ '`') phGen p1.2.length p1.1
  let p3 := extract (matchQ '"') phGen (p1.2.length + p2.2.length) p2.1
  let p4 := extract (matchQ '\'') phGen (p1.2.length + p2.2.length + p3.2.length) p3.1
  (p4.1,
   p1.2.map (fun m => (m, m.take 3)) ++ p2.2.map (fun m => (m, ['`'])) ++
   p3.2.map (fun m => (m, ['"'])) ++ p4.2.map (fun m => (m, ['\''])))

/-- Matcher deleting `#[^\n]*` (no lookbehind in the generic handler). -/
def mHashPlain (l : List Char) : Option (List Char × List Char) :=
  match l with
  | '#' :: cs => some ([], cs.dropWhile (· ≠ '\n'))
  | _ => none

/-- Matcher deleting `<!--[\s\S]*?-->`. -/
def mHtmlComment (l : List Char) : Option (List Char × List Char) :=
  match l with
  | '<' :: '!' :: '-' :: '-' :: cs => (scanUntil "-->".data cs).map (fun p => ([], p.2))
  | _ => none

/-- GenericObfuscator step 2: five comment styles, in source order. -/
def genComments (code : List Char) : List Char :=
  gsub mHtmlComment (gsub mLuaLineComment (gsub mHashPlain
    (gsub mLineComment2 (gsub mBlockComment code))))

/-- The generic handler's reserved-word set (matched lower-cased). -/
def genReserved : List (List Char) :=
  (["if", "else", "for", "while", "do", "switch", "case", "break", "continue", "return",
    "function", "def", "class", "struct", "enum", "interface", "trait", "type",
    "import", "export", "from", "require", "include", "use", "package", "module",
    "public", "private", "protected", "static", "final", "const", "var", "let", "val",
    "true", "false", "null", "nil", "none", "undefined", "void",
    "new", "this", "self", "super", "extends", "implements", "with",
    "try", "catch", "finally", "throw", "throws", "raise", "except",
    "async", "await", "yield", "lambda", "fn", "proc", "sub",
    "print", "println", "echo", "console", "log", "write", "read", "input", "output",
    "main", "init", "setup", "run", "start", "stop", "exit", "quit",
    "and", "or", "not", "in", "is", "as", "typeof", "instanceof"] :
    List String).map String.data

/-- Case-insensitive variant of the declaration matcher (regex `gi`). -/
def mKwIdentCI (kws : List (List Char)) (prev : Option Char) (l : List Char) :
    Option (List Char × List Char × Option Char) :=
  if bnd prev l.head? = true then
    kws.findSome? (fun kw =>
      if ciPrefix kw l then
        let r1 := l.drop kw.length
        if (r1.takeWhile wsChar) ≠ [] then
          match r1.dropWhile wsChar with
          | c :: cs =>
            if identStart c then
              let nm := c :: cs.takeWhile identChar
              some (nm, cs.dropWhile identChar, some (nm.getLastD c))
            else none
          | [] => none
        else none
      else none)
  else none

/-- GenericObfuscator.renameIdentifiers: two case-insensitive
declaration patterns scanned in turn, keeping names longer than one
character, then whole-word substitution. -/
def genRename (ν : Nat → List Char) (code : List Char) : List Char :=
  let ns1 := scanKwGo (mKwIdentCI ((["var", "let", "const", "val", "def", "dim",
    "local", "my", "our"] : List String).map String.data)) code.length none code
  let ns2 := scanKwGo (mKwIdentCI ((["int", "float", "double", "string", "bool",
    "boolean", "char", "void"] : List String).map String.data)) code.length none code
  let m := (ns1 ++ ns2).foldl (fun (m : VarMap) n =>
    if (n.map Char.toLower) ∈ genReserved ∨ (List.lookup n m).isSome ∨ n.length ≤ 1 then m
    else m ++ [(n, '_' :: ν m.length ++ natChars (m.length + 1))]) []
  applyMap m code

/-- The per-literal restore step of GenericObfuscator step 4: only plain
double- or single-quoted literals without `$` and shorter than 80
characters are re-encoded (as unicode escapes), and only when
`encodeStrings` is on. -/
def genRepl (o : Opts) (orig quote : List Char) : List Char :=
  if o.encodeStrings ∧ (quote = ['"'] ∨ quote = ['\'']) then
    let content := (orig.drop 1).dropLast
    if 0 < content.length ∧ content.length < 80 ∧ ¬ ('$' ∈ content) then
      quote ++ content.flatMap (fun c => '\\' :: 'u' :: padZero 4 (hexChars c.toNat)) ++ quote
    else orig
  else orig

/-- GenericObfuscator.minifyCode: drop blank lines, trim each line. -/
def genMinify (code : List Char) : List Char :=
  joinNl (((splitNl code).map trim).filter (fun l => l ≠ []))

/-- GenericObfuscator.obfuscate. -/
def genericObfuscate (o : Opts) (ν : Nat → List Char) (code : List Char) : List Char :=
  let e := genExtract code
  let r2 := if o.removeComments then genComments e.1 else e.1
  let r3 := if o.renameVariables then genRename ν r2 else r2
  let r4 := (e.2.enum).foldl
    (fun t p => replaceAll (phGen p.1) (genRepl o p.2.1 p.2.2) t) r3
  if minifyOn o then genMinify r4 else r4

/-! ## Factory (createObfuscator, index.ts) -/

/-- One constructor per handler class of the factory map, plus the
fallback. -/
inductive ObfKind where
  | javascript | python | java | cpp | csharp | go | php | ruby | rust
  | powershell | bash | lua | perl | scala | dart | groovy | sql | html
  | css | generic
deriving DecidableEq, Repr

/-- The factory's language-to-class map (its exact 19 keys). -/
def langMap : List (String × ObfKind) :=
  [("javascript", .javascript), ("python", .python), ("java", .java),
   ("cpp", .cpp), ("csharp", .csharp), ("go", .go), ("php", .php),
   ("ruby", .ruby), ("rust", .rust), ("powershell", .powershell),
   ("bash", .bash), ("lua", .lua), ("perl", .perl), ("scala", .scala),
   ("dart", .dart), ("groovy", .groovy), ("sql", .sql), ("html", .html),
   ("css", .css)]

/-- `createObfuscator`: look the tag up in the map; any other tag falls
back to the generic handler (`map[language] || GenericObfuscator`). -/
def createObfuscator (lang : String) : ObfKind :=
  (List.lookup lang langMap).getD ObfKind.generic

/-! ## Decomposed source texts

Specification-side view of a source text as an alternation of plain code
and simple string literals, used to state the placeholder round-trip
property for the Lua handler. -/

/-- A source segment: plain code, or a quoted string literal. -/
inductive LSeg where
  | code (s : List Char)
  | str (q : Char) (content : List Char)

/-- The text of one segment. -/
def LSeg.render : LSeg → List Char
  | .code s => s
  | .str q c => q :: c ++ [q]

/-- Whether a segment is plain code. -/
def LSeg.isCode : LSeg → Bool
  | .code _ => true
  | .str _ _ => false

/-- The source text of a decomposition. -/
def renderSrc (l : List LSeg) : List Char := (l.map LSeg.render).flatten

/-- Plain code: no quotes and no square bracket. -/
def plainCode (s : List Char) : Prop := ∀ c ∈ s, c ≠ '"' ∧ c ≠ '\'' ∧ c ≠ '['

/-- A simple literal: a double or single quote around content free of
quotes, backslashes and square brackets. -/
def plainStr (q : Char) (content : List Char) : Prop :=
  (q = '"' ∨ q = '\'') ∧ ∀ c ∈ content, c ≠ '"' ∧ c ≠ '\'' ∧ c ≠ '\\' ∧ c ≠ '['

/-- Well-formedness of one segment. -/
def wfSeg : LSeg → Prop
  | .code s => plainCode s
  | .str q c => plainStr q c

/-- No two adjacent code segments (the decomposition is maximal). -/
def sepSegs (l : List LSeg) : Prop :=
  List.Chain' (fun a b => ¬ (a.isCode = true ∧ b.isCode = true)) l

/-- The marker substring shared by every Lua placeholder. -/
def mark6 : List Char := "LUASTR".data

/-- The protected text: every literal of the decomposition replaced by
its placeholder, numbering from `i`. -/
def renderPh (i : Nat) : List LSeg → List Char
  | [] => []
  | .code s :: r => s ++ renderPh i r
  | .str _ _ :: r => phLua i ++ renderPh (i + 1) r

/-- The recorded originals of the decomposition, in order. -/
def strsOf : List LSeg → List (List Char)
  | [] => []
  | .code _ :: r => strsOf r
  | .str q c :: r => (q :: c ++ [q]) :: strsOf r

/-- A text that is empty or begins with some Lua placeholder. -/
def TokStart (X : List Char) : Prop := X = [] ∨ ∃ i X', X = phLua i ++ X'

/-- A text that begins with a placeholder, possibly after a
`LUASTR`-free chunk. -/
def GoodCont (X : List Char) : Prop :=
  TokStart X ∨ ∃ s X', X = s ++ X' ∧ ¬ occurs mark6 s ∧ TokStart X'

instance (sg : LSeg) : Decidable (wfSeg sg) :=
  match sg with
  | .code s => inferInstanceAs (Decidable (∀ c ∈ s, c ≠ '"' ∧ c ≠ '\'' ∧ c ≠ '['))
  | .str q c => inferInstanceAs (Decidable ((q = '"' ∨ q = '\'') ∧
      ∀ x ∈ c, x ≠ '"' ∧ x ≠ '\'' ∧ x ≠ '\\' ∧ x ≠ '['))

/-- A concrete no-draw oracle for evaluations. -/
def rngOff : Nat → Bool := fun _ => false

/-- A concrete always-draw oracle for evaluations. -/
def rngOn : Nat → Bool := fun _ => true

/-- A concrete pick oracle. -/
def pick0 : Nat → Nat := fun _ => 0

/-- A concrete name oracle. -/
def nameNil : Nat → List Char := fun _ => []

/-- Only comment removal on. -/
def optsRC : Opts := { optsOff with removeComments := true }

/-- Only dead-code injection on. -/
def optsDC : Opts := { optsOff with deadCodeInjection := true }

/-- Only renaming on. -/
def optsRN : Opts := { optsOff with renameVariables := true }

/-- Only base64 on (note: `encodeStrings` stays off). -/
def optsB64 : Opts := { optsOff with base64Strings := true }

/-- Hex encoding properly enabled (`encodeStrings` and `hexEncoding`). -/
def optsHex : Opts := { optsOff with encodeStrings := true, hexEncoding := true }

/-- The option record of the interpolation scenario: renaming plus every
string-encoding flag. -/
def optsC5 : Opts :=
  { renameVariables := true, encodeStrings := true, removeComments := false,
    controlFlowFlattening := false, deadCodeInjection := false, unicodeEscape := false,
    hexEncoding := true, base64Strings := true, shuffleCode := false,
    minify := false, intensity := .low }

/-! # Theorems -/

/-- C1 (counterexample): the Lua handler's extract-then-restore round
trip with the identity encoding (all encoding options off) is *not*
lossless on every input: an input that already contains the text of the
first placeholder token is corrupted, because restoration replaces every
occurrence of the placeholder string, not only the generated one. -/
theorem lua_roundtrip_cex :
    luaObfuscate [] optsOff nameNil rngOff "___LUASTR_0_PLACEHOLDER___ \"a\"".data =
      "\"a\" \"a\"".data ∧
    luaObfuscate [] optsOff nameNil rngOff "___LUASTR_0_PLACEHOLDER___ \"a\"".data ≠
      "___LUASTR_0_PLACEHOLDER___ \"a\"".data := by
  exact ⟨by decide, by decide⟩

/-- C2: in the JavaScript handler, comment removal runs *before* string
extraction (steps 1 and 2 of `JavaScriptObfuscator.obfuscate`), contrary
to the documented pipeline.  Multi-line comment removal has no notion of
string literals, so with `removeComments` on, the input
`x = "/*"; y = "*/";` collapses to `x = "";`: everything between the
`/*` inside the first literal and the `*/` inside the second is deleted,
destroying both strings. -/
theorem js_comments_run_before_extraction :
    jsObfuscate optsRC nameNil rngOff pick0
      "x = \"/*\"; y = \"*/\";".data = "x = \"\";".data := by decide

/-- C3 (counterexample): with `encodeStrings := false` but
`base64Strings := true`, the JavaScript restore step *does* re-encode a
literal: the base64 branch is gated only by `base64Strings`, not by
`encodeStrings`. -/
theorem encode_gate_cex :
    jsRepl optsB64 "\"hi\"".data =
      "(new TextDecoder().decode(Uint8Array.from(atob(\"aGk=\"),c=>c.charCodeAt(0))))".data ∧
    jsRepl optsB64 "\"hi\"".data ≠ "\"hi\"".data := by
  exact ⟨by decide, by decide⟩

/-- C4 (counterexample): the Rust handler's dead-code injector has no
control-transfer guard: whenever the draw fires after a line ending in
`;`, it inserts `let _ = 0;` — including directly after `return 0;`,
whose trimmed content matches the control-transfer word `return`. -/
theorem rust_deadcode_after_return_cex :
    rustObfuscate [] optsDC nameNil rngOn
      "fn f() -> i32 \x7b\n    return 0;\n\x7d".data =
      "fn f() -> i32 \x7b\n    return 0;\nlet _ = 0;\n\x7d".data ∧
    hasTerminator (trim "    return 0;".data) = true := by
  exact ⟨by decide, by decide⟩

/-- C7: for the JavaScript (C-family) handler with `removeComments`,
the line `x = "a // not a comment"` is preserved whole: line-comment
removal counts the quotes before the candidate `//` and leaves the line
alone when the count is odd (the marker is inside a string). -/
theorem js_comment_marker_inside_string_kept (ν : Nat → List Char) (ρ : Nat → Bool)
    (π : Nat → Nat) :
    jsObfuscate optsRC ν ρ π
      "x = \"a // not a comment\"".data = "x = \"a // not a comment\"".data := rfl

/-- C9 (counterexample): the CSS handler never clears its object-scoped
`variableMap`/`counter`.  Reusing one instance makes the second call's
output depend on the first call: the same selector `.b` is renamed with
counter suffix `2` on a reused instance but `1` on a fresh one, with
identical options and identical random draws. -/
theorem css_state_not_reset_cex :
    (cssObfuscate
        (cssObfuscate cssFresh optsRN (fun _ => "OOOOOO".data) pick0 ".a\x7bx:y\x7d".data).2
        optsRN (fun _ => "OOOOOO".data) pick0 ".b\x7bx:y\x7d".data).1 ≠
    (cssObfuscate cssFresh optsRN (fun _ => "OOOOOO".data) pick0 ".b\x7bx:y\x7d".data).1 := by
  decide

/-- C10 (counterexample): a shebang *not followed by a newline* is not
split off (`indexOf('\n')` is `-1`, so the preserved slice is empty),
and with `removeComments` on the whole `#!/bin/bash` line is then
deleted as a `#` comment: the output is empty and does not start with
the shebang. -/
theorem bash_shebang_cex :
    bashObfuscate [] optsRC nameNil rngOff "#!/bin/bash".data = [] := by decide

/-- C3 (amended): `encodeStrings = false` does switch off the hex and
unicode re-encodings, and together with `base64Strings = false` every
literal is restored exactly as recorded, for the JavaScript restore step
and (with renaming off) the Perl restore step. -/
theorem encode_gate_amended (o : Opts) (h1 : o.encodeStrings = false)
    (h2 : o.base64Strings = false) :
    (∀ orig, jsRepl o orig = orig) ∧
    (∀ vm orig, o.renameVariables = false → perlRepl o vm orig = orig) := by
  constructor
  · intro orig
    simp [jsRepl, h1, h2]
  · intro vm orig h3
    simp [perlRepl, h1, h2, h3]

/-- Witness for `encode_gate_amended`. -/
theorem encode_gate_amended_wit :
    jsRepl optsOff "\"hi\"".data = "\"hi\"".data ∧
    perlRepl optsOff [] "\"hi\"".data = "\"hi\"".data :=
  ⟨(encode_gate_amended optsOff rfl rfl).1 _,
   (encode_gate_amended optsOff rfl rfl).2 [] _ rfl⟩

/-- C5: in the Bash restore step, a double-quoted literal carrying
shell interpolation (here `"hello $name"`, with `name` mapped to `nw` by
the renamer) is restored with the `$` marker intact and only the
identifier substituted — and it is never hex- or base64-encoded, for
*every* option record with `renameVariables` on, regardless of
`encodeStrings`, `hexEncoding` or `base64Strings`. -/
theorem bash_interpolation_preserved (o : Opts) (nw : List Char)
    (h : o.renameVariables = true) :
    bashRepl o [("name".data, nw)] "\"hello $name\"".data =
      '"' :: ("hello $".data ++ (nw ++ ['"'])) := by
  obtain ⟨rv, es, rc, cf, dc, ue, he, b6, sc, mf, it⟩ := o
  cases h
  rfl

/-- Witness for `bash_interpolation_preserved`, at the option record of
the claim (`renameVariables`, `encodeStrings`, `hexEncoding`,
`base64Strings` all on) and the spec's example name `_ab12cd34`. -/
theorem bash_interpolation_preserved_wit :
    bashRepl optsC5 [("name".data, "_ab12cd34".data)] "\"hello $name\"".data =
      "\"hello $_ab12cd34\"".data := by
  have h := bash_interpolation_preserved optsC5 "_ab12cd34".data rfl
  exact h.trans (by decide)

/-- C9 (amended): the Lua, Bash and Rust handlers clear their
object-scoped `varMap` on entry to `obfuscate`, so a call's result never
depends on state left over in a reused instance. -/
theorem handler_state_cleared (m1 m2 : VarMap) (o : Opts) (ν : Nat → List Char)
    (ρ : Nat → Bool) (code : List Char) :
    luaObfuscate m1 o ν ρ code = luaObfuscate m2 o ν ρ code ∧
    bashObfuscate m1 o ν ρ code = bashObfuscate m2 o ν ρ code ∧
    rustObfuscate m1 o ν ρ code = rustObfuscate m2 o ν ρ code :=
  ⟨rfl, rfl, rfl⟩

/-- `idxOf` only reports positions inside the text, for a nonempty
pattern. -/
theorem idxOf_lt {pat : List Char} : ∀ {l : List Char} {n : Nat},
    idxOf pat l = some n → pat ≠ [] → n < l.length := by
  intro l
  induction l with
  | nil =>
    intro n h hne
    unfold idxOf at h
    split at h
    · simp_all
    · simp at h
  | cons c cs ih =>
    intro n h hne
    unfold idxOf at h
    split at h
    · cases h; simp
    · simp only [Option.map_eq_some'] at h
      obtain ⟨m, hm, rfl⟩ := h
      have := ih hm hne
      simp
      omega


/-- Pointwise-equal functions give equal flat maps. -/
theorem flatMap_of_all {f g : Char → List Char} : ∀ (l : List Char),
    (∀ c ∈ l, f c = g c) → l.flatMap f = l.flatMap g := by
  intro l h
  induction l with
  | nil => rfl
  | cons c cs ih =>
    simp only [List.flatMap_cons]
    rw [h c (by simp), ih (fun d hd => h d (by simp [hd]))]

/-- C6: in the JavaScript restore step with `encodeStrings` and
`hexEncoding` on (and `base64Strings` off), a quoted literal whose
content has length at least 100 is restored unchanged, while a literal
of 5 printable-ASCII characters is emitted as `\xHH` escapes, one per
character. -/
theorem js_hex_length_bounds (o : Opts) (h1 : o.encodeStrings = true)
    (h2 : o.hexEncoding = true) (h3 : o.base64Strings = false) (content : List Char) :
    (100 ≤ content.length → jsRepl o ('"' :: content ++ ['"']) = '"' :: content ++ ['"']) ∧
    (content.length = 5 → (∀ c ∈ content, 31 < c.toNat ∧ c.toNat < 128) →
      jsRepl o ('"' :: content ++ ['"']) =
        '"' :: content.flatMap (fun c => '\\' :: 'x' :: padZero 2 (hexChars c.toNat)) ++ ['"']) := by
  have hc : (List.drop 1 ('"' :: content ++ ['"'])).dropLast = content := by simp
  constructor
  · intro hlen
    simp only [jsRepl]
    rw [if_neg (by simp), hc, if_neg (by omega)]
  · intro hlen hpr
    simp only [jsRepl]
    rw [if_neg (by simp), hc, if_pos (by omega), if_neg (by simp [h3]),
      if_pos (by simp [h1, h2])]
    have : content.flatMap (fun c =>
        if 31 < c.toNat ∧ c.toNat < 128 then '\\' :: 'x' :: padZero 2 (hexChars c.toNat)
        else [c]) = content.flatMap (fun c => '\\' :: 'x' :: padZero 2 (hexChars c.toNat)) := by
      apply flatMap_of_all
      intro c hc
      rw [if_pos (hpr c hc)]
    rw [this]


/-- Witness for `js_hex_length_bounds`. -/
theorem js_hex_length_bounds_wit :
    jsRepl optsHex ('"' :: List.replicate 100 'a' ++ ['"']) =
      '"' :: List.replicate 100 'a' ++ ['"'] ∧
    jsRepl optsHex "\"hello\"".data = "\"\\x68\\x65\\x6c\\x6c\\x6f\"".data := by
  refine ⟨(js_hex_length_bounds optsHex rfl rfl rfl (List.replicate 100 'a')).1 (by simp),
    ((js_hex_length_bounds optsHex rfl rfl rfl "hello".data).2 rfl (by decide)).trans
      (by decide)⟩

/-- A key absent from an association list's keys looks up to `none`. -/
theorem lookup_none_of_not_mem (lang : String) : ∀ (l : List (String × ObfKind)),
    lang ∉ l.map Prod.fst → List.lookup lang l = none := by
  intro l
  induction l with
  | nil => intro _; rfl
  | cons p r ih =>
    intro h
    obtain ⟨k, v⟩ := p
    simp only [List.map_cons, List.mem_cons] at h
    push_neg at h
    have hb : (lang == k) = false := beq_false_of_ne h.1
    simp [List.lookup, ih h.2, hb]

/-- C8: any language tag outside the factory map's keys dispatches to
the generic handler, whose `obfuscate` is a total function — the call
always produces a string and has no failure path. -/
theorem unknown_lang_dispatches_generic (lang : String)
    (h : lang ∉ langMap.map Prod.fst) :
    createObfuscator lang = ObfKind.generic ∧
    ∀ (o : Opts) (ν : Nat → List Char) (code : List Char),
      ∃ out, genericObfuscate o ν code = out := by
  refine ⟨?_, fun o ν code => ⟨_, rfl⟩⟩
  unfold createObfuscator
  rw [lookup_none_of_not_mem lang langMap h]
  rfl

/-- Witness for `unknown_lang_dispatches_generic`. -/
theorem unknown_lang_dispatches_generic_wit :
    createObfuscator "brainfuck" = ObfKind.generic :=
  (unknown_lang_dispatches_generic "brainfuck" (by decide)).1

/-- C10 (amended): when the input starts with `#!` *and contains a
newline*, the Bash handler splits the shebang line (newline included)
off before every stage and prepends it verbatim: for every option record
and every oracle, the output starts with the exact original shebang
line. -/
theorem bash_shebang_preserved (inst : VarMap) (o : Opts) (ν : Nat → List Char)
    (ρ : Nat → Bool) (code : List Char) (i : Nat)
    (h1 : "#!".data.isPrefixOf code = true) (h2 : idxOf ['\n'] code = some i) :
    (bashObfuscate inst o ν ρ code).take (i + 1) = code.take (i + 1) := by
  have hi : i < code.length := idxOf_lt h2 (by decide)
  have hlen : (code.take (i + 1)).length = i + 1 := by
    rw [List.length_take]; omega
  simp only [bashObfuscate]
  rw [if_pos h1, h2]
  exact List.take_left' hlen

/-- Witness for `bash_shebang_preserved`. -/
theorem bash_shebang_preserved_wit :
    (bashObfuscate [] optsOff nameNil rngOff "#!/bin/sh\necho hi".data).take 10 =
      "#!/bin/sh\necho hi".data.take 10 :=
  bash_shebang_preserved [] optsOff nameNil rngOff "#!/bin/sh\necho hi".data 9
    (by decide) (by decide)


/-- The first emitted line of the dead-code injector is always an
original line. -/
theorem flatMap_inject_head (g : Nat × List Char → List (List Char × Bool))
    (hg : ∀ p, g p = [(p.2, false)] ∨
      (∃ s, g p = [(p.2, false), (s, true)] ∧ hasTerminator (trim p.2) = false)) :
    ∀ (xs : List (Nat × List Char)) (s : List Char) (b : Bool),
      (xs.flatMap g).get? 0 = some (s, b) → b = false := by
  intro xs s b h
  match xs with
  | [] => simp at h
  | p :: r =>
    rcases hg p with h1 | ⟨s', h2, _⟩
    · rw [List.flatMap_cons, h1] at h
      simp at h
      exact h.2
    · rw [List.flatMap_cons, h2] at h
      simp at h
      exact h.2

/-- Injected lines only ever directly follow an original line whose
trimmed content has no control-transfer word, for any per-line injector
of this shape. -/
theorem flatMap_inject_safe (g : Nat × List Char → List (List Char × Bool))
    (hg : ∀ p, g p = [(p.2, false)] ∨
      (∃ s, g p = [(p.2, false), (s, true)] ∧ hasTerminator (trim p.2) = false)) :
    ∀ (xs : List (Nat × List Char)) (i : Nat) (s : List Char),
      (xs.flatMap g).get? (i + 1) = some (s, true) →
      ∃ l, (xs.flatMap g).get? i = some (l, false) ∧ hasTerminator (trim l) = false := by
  intro xs
  induction xs with
  | nil => intro i s h; simp at h
  | cons p r ih =>
    intro i s h
    rcases hg p with h1 | ⟨s', h2, hterm⟩
    · rw [List.flatMap_cons, h1] at h ⊢
      simp only [List.singleton_append, List.get?_cons_succ] at h
      match i with
      | 0 =>
        exact absurd (flatMap_inject_head g hg r s true h) (by simp)
      | i' + 1 =>
        simpa using ih i' s h
    · rw [List.flatMap_cons, h2] at h ⊢
      match i with
      | 0 =>
        simp only [List.cons_append, List.get?_cons_succ, List.get?_cons_zero] at h ⊢
        exact ⟨p.2, rfl, hterm⟩
      | i'' + 1 =>
        simp only [List.cons_append, List.get?_cons_succ] at h ⊢
        match i'' with
        | 0 =>
          exact absurd (flatMap_inject_head g hg r s true h) (by simp)
        | j + 1 =>
          simpa using ih j s h

/-- C4 (amended): the JavaScript injector `injectDeadCodeSafe` is
guarded — for every input and every oracle, an injected dead snippet
never appears directly after a line whose trimmed content matches a
control-transfer keyword (`return`, `throw`, `break`, `continue`). -/
theorem js_deadcode_guard (ρ : Nat → Bool) (π : Nat → Nat) (code : List Char)
    (i : Nat) (s : List Char)
    (h : (jsInjectAnn ρ π code).get? (i + 1) = some (s, true)) :
    ∃ l, (jsInjectAnn ρ π code).get? i = some (l, false) ∧
      hasTerminator (trim l) = false := by
  have hg : ∀ p : Nat × List Char,
      (fun p : Nat × List Char =>
        if ρ p.1 && (List.isSuffixOf [';'] (trim p.2) || List.isSuffixOf ['}'] (trim p.2)) &&
            !hasTerminator (trim p.2) then
          [(p.2, false), (jsDeadSnippets.getD (π p.1 % 3) [], true)]
        else [(p.2, false)]) p = [(p.2, false)] ∨
      (∃ s', (fun p : Nat × List Char => if ρ p.1 && (List.isSuffixOf [';'] (trim p.2) ||
            List.isSuffixOf ['}'] (trim p.2)) && !hasTerminator (trim p.2) then
          [(p.2, false), (jsDeadSnippets.getD (π p.1 % 3) [], true)]
        else [(p.2, false)]) p = [(p.2, false), (s', true)] ∧
        hasTerminator (trim p.2) = false) := by
    intro p
    by_cases hc : (ρ p.1 && (List.isSuffixOf [';'] (trim p.2) ||
        List.isSuffixOf ['}'] (trim p.2)) && !hasTerminator (trim p.2)) = true
    · right
      refine ⟨jsDeadSnippets.getD (π p.1 % 3) [], by simp [hc], ?_⟩
      simp only [Bool.and_eq_true, Bool.not_eq_true'] at hc
      exact hc.2
    · left
      simp [hc]
  exact flatMap_inject_safe _ hg ((splitNl code).enum) i s h

/-- Witness for `js_deadcode_guard`. -/
theorem js_deadcode_guard_wit :
    ∃ l, (jsInjectAnn rngOn pick0 "x = 1;".data).get? 0 = some (l, false) ∧
      hasTerminator (trim l) = false :=
  js_deadcode_guard rngOn pick0 "x = 1;".data 0 "void 0;".data (by decide)

/-! ## Lua round-trip: digit and placeholder structure -/

/-- Value of a decimal digit character. -/
theorem digCh_val {m : Nat} (h : m < 10) : (digCh m).toNat = 48 + m := by
  interval_cases m <;> decide

/-- Every character of a base-ten expansion is a decimal digit. -/
theorem natCharsGo_digit : ∀ (f n : Nat) (c : Char), c ∈ natCharsGo 10 f n →
    48 ≤ c.toNat ∧ c.toNat ≤ 57 := by
  intro f
  induction f with
  | zero => intro n c hc; simp [natCharsGo] at hc
  | succ f ih =>
    intro n c hc
    by_cases h10 : n < 10
    · simp only [natCharsGo, if_pos h10, List.mem_singleton] at hc
      subst hc
      rw [digCh_val h10]; omega
    · simp only [natCharsGo, if_neg h10, List.mem_append, List.mem_singleton] at hc
      rcases hc with hc | hc
      · exact ih _ _ hc
      · subst hc
        rw [digCh_val (show n % 10 < 10 by omega)]; omega

/-- Every character of a decimal index is a digit. -/
theorem natChars_digit {n : Nat} {c : Char} (h : c ∈ natChars n) :
    48 ≤ c.toNat ∧ c.toNat ≤ 57 :=
  natCharsGo_digit _ _ _ h

/-- The decimal expansion of a natural number is nonempty. -/
theorem natChars_ne_nil (n : Nat) : natChars n ≠ [] := by
  simp only [natChars, natCharsGo]
  split <;> simp

/-- A decimal digit character is not an underscore. -/
theorem dig_ne_us {c : Char} (_h1 : 48 ≤ c.toNat) (h2 : c.toNat ≤ 57) :
    c ≠ '_' := by
  intro he
  rw [he] at h2
  exact absurd h2 (by decide)

/-- Value of the base-ten expansion under the digit fold, for adequate
fuel. -/
theorem natCharsGo_val : ∀ (f n : Nat), n < 10 ^ f → ∀ (acc : Nat),
    List.foldl (fun a c => 10 * a + (c.toNat - 48)) acc (natCharsGo 10 f n) =
      acc * 10 ^ (natCharsGo 10 f n).length + n := by
  intro f
  induction f with
  | zero =>
    intro n hn acc
    have h1 : (10 : Nat) ^ 0 = 1 := by norm_num
    rw [h1] at hn
    have h0 : n = 0 := by omega
    subst h0
    simp [natCharsGo]
  | succ f ih =>
    intro n hn acc
    by_cases h10 : n < 10
    · simp only [natCharsGo, if_pos h10, List.foldl_cons, List.foldl_nil,
        List.length_singleton, pow_one]
      rw [digCh_val h10]
      omega
    · simp only [natCharsGo, if_neg h10]
      rw [List.foldl_append]
      have hdiv : n / 10 < 10 ^ f := by
        rw [Nat.div_lt_iff_lt_mul (by omega)]
        calc n < 10 ^ (f + 1) := hn
          _ = 10 ^ f * 10 := by rw [pow_succ]
      rw [ih (n / 10) hdiv acc]
      simp only [List.foldl_cons, List.foldl_nil, List.length_append,
        List.length_singleton]
      rw [digCh_val (show n % 10 < 10 by omega)]
      have hm : 48 + n % 10 - 48 = n % 10 := by omega
      rw [hm]
      calc 10 * (acc * 10 ^ (natCharsGo 10 f (n / 10)).length + n / 10) + n % 10
          = acc * 10 ^ ((natCharsGo 10 f (n / 10)).length + 1) +
              (10 * (n / 10) + n % 10) := by ring
        _ = acc * 10 ^ ((natCharsGo 10 f (n / 10)).length + 1) + n := by
              omega

/-- Decimal printing of naturals is injective. -/
theorem natChars_inj {a b : Nat} (h : natChars a = natChars b) : a = b := by
  have pa : ∀ n : Nat, n < 10 ^ (n + 1) := by
    intro n
    induction n with
    | zero => norm_num
    | succ n ihn =>
      have hp : (10 : Nat) ^ (n + 2) = 10 ^ (n + 1) * 10 := by rw [pow_succ]
      omega
  have ha := natCharsGo_val (a + 1) a (pa a) 0
  have hb := natCharsGo_val (b + 1) b (pa b) 0
  rw [show natCharsGo 10 (a + 1) a = natChars a from rfl] at ha
  rw [show natCharsGo 10 (b + 1) b = natChars b from rfl] at hb
  simp only [Nat.zero_mul, Nat.zero_add] at ha hb
  rw [← ha, h]
  exact hb

/-- Splitting a prefix relation across an append: the part of the pattern
beyond `a` is a prefix of `b`. -/
theorem pfx_split {pat a b : List Char} (h : pat <+: a ++ b)
    (hl : a.length ≤ pat.length) : pat.drop a.length <+: b := by
  obtain ⟨t, ht⟩ := h
  refine ⟨t, ?_⟩
  have hd := congrArg (List.drop a.length) ht
  rw [List.drop_append_eq_append_drop, List.drop_append_eq_append_drop] at hd
  simpa [Nat.sub_eq_zero_of_le hl] using hd

/-- Splitting a suffix of an append: either the suffix lies inside `b`,
or it is a nonempty suffix of `a` followed by all of `b`. -/
theorem sfx_split {s a b : List Char} (h : s <:+ a ++ b) :
    s <:+ b ∨ ∃ s₂, s₂ <:+ a ∧ s₂ ≠ [] ∧ s = s₂ ++ b := by
  obtain ⟨t, ht⟩ := h
  by_cases hl : a.length ≤ t.length
  · left
    refine ⟨t.drop a.length, ?_⟩
    have hd := congrArg (List.drop a.length) ht
    rw [List.drop_append_eq_append_drop, List.drop_append_eq_append_drop] at hd
    simpa [Nat.sub_eq_zero_of_le hl] using hd
  · right
    refine ⟨a.drop t.length, List.drop_suffix _ _, ?_, ?_⟩
    · intro hnil
      have hlen := congrArg List.length hnil
      rw [List.length_drop] at hlen
      simp only [List.length_nil] at hlen
      omega
    · have hd := congrArg (List.drop t.length) ht
      rw [List.drop_append_eq_append_drop, List.drop_append_eq_append_drop] at hd
      simpa [Nat.sub_eq_zero_of_le (le_of_not_le hl)] using hd

/-- A pattern absent from a text is absent from every infix of it. -/
theorem not_occurs_mono {pat a b : List Char} (hb : ¬ occurs pat b)
    (hab : a <:+: b) : ¬ occurs pat a :=
  fun hx => hb (List.IsInfix.trans hx hab)

/-- Comparing two digit runs, each followed by an underscore-led tail: a
prefix relation forces the runs to coincide. -/
theorem digits_pfx_eq : ∀ (A B u v : List Char),
    (∀ c ∈ A, 48 ≤ c.toNat ∧ c.toNat ≤ 57) →
    (∀ c ∈ B, 48 ≤ c.toNat ∧ c.toNat ≤ 57) →
    A ++ '_' :: u <+: B ++ '_' :: v → A = B := by
  intro A
  induction A with
  | nil =>
    intro B u v _ hB h
    cases B with
    | nil => rfl
    | cons b B' =>
      exfalso
      rw [List.nil_append, List.cons_append] at h
      have hb := (List.cons_prefix_cons.mp h).1
      have hd := hB b (List.mem_cons_self b B')
      exact dig_ne_us hd.1 hd.2 hb.symm
  | cons a A' ih =>
    intro B u v hA hB h
    cases B with
    | nil =>
      exfalso
      rw [List.nil_append, List.cons_append] at h
      have hb := (List.cons_prefix_cons.mp h).1
      have hd := hA a (List.mem_cons_self a A')
      exact dig_ne_us hd.1 hd.2 hb
    | cons b B' =>
      rw [List.cons_append, List.cons_append] at h
      have h' := List.cons_prefix_cons.mp h
      rw [h'.1]
      rw [ih B' u v (fun c hc => hA c (List.mem_cons_of_mem a hc))
        (fun c hc => hB c (List.mem_cons_of_mem b hc)) h'.2]

/-- Length of the Lua placeholder. -/
theorem phLua_length (i : Nat) : (phLua i).length = 25 + (natChars i).length := by
  have h1 : ("___LUASTR_".data).length = 10 := rfl
  have h2 : ("_PLACEHOLDER___".data).length = 15 := rfl
  simp only [phLua, List.length_append, h1, h2]
  omega

/-- The Lua placeholder is nonempty. -/
theorem phLua_ne_nil (j : Nat) : phLua j ≠ [] := by
  intro h
  have hlen := congrArg List.length h
  rw [phLua_length j] at hlen
  simp only [List.length_nil] at hlen
  omega

/-- A placeholder tail shifted by one to eight characters never begins a
placeholder-headed text: the shift lands inside the marker prefix and the
texts mismatch within the first three characters. -/
theorem drop_k_not_tok {j i : Nat} {X : List Char} {k : Nat} (h1 : 1 ≤ k)
    (h2 : k ≤ 8) : ¬ (phLua j).drop k <+: phLua i ++ X := by
  have e0 : phLua i ++ X =
      '_' :: '_' :: '_' :: 'L' :: 'U' :: 'A' :: 'S' :: 'T' :: 'R' :: '_' ::
        ((natChars i ++ "_PLACEHOLDER___".data) ++ X) := rfl
  intro h
  rw [e0] at h
  interval_cases k
  · have e : (phLua j).drop 1 =
        '_' :: '_' :: 'L' :: 'U' :: 'A' :: 'S' :: 'T' :: 'R' :: '_' ::
          (natChars j ++ "_PLACEHOLDER___".data) := rfl
    rw [e] at h
    have h' := (List.cons_prefix_cons.mp (List.cons_prefix_cons.mp h).2).2
    exact absurd (List.cons_prefix_cons.mp h').1 (by decide)
  · have e : (phLua j).drop 2 =
        '_' :: 'L' :: 'U' :: 'A' :: 'S' :: 'T' :: 'R' :: '_' ::
          (natChars j ++ "_PLACEHOLDER___".data) := rfl
    rw [e] at h
    have h' := (List.cons_prefix_cons.mp h).2
    exact absurd (List.cons_prefix_cons.mp h').1 (by decide)
  · have e : (phLua j).drop 3 =
        'L' :: 'U' :: 'A' :: 'S' :: 'T' :: 'R' :: '_' ::
          (natChars j ++ "_PLACEHOLDER___".data) := rfl
    rw [e] at h
    exact absurd (List.cons_prefix_cons.mp h).1 (by decide)
  · have e : (phLua j).drop 4 =
        'U' :: 'A' :: 'S' :: 'T' :: 'R' :: '_' :: (natChars j ++ "_PLACEHOLDER___".data) := rfl
    rw [e] at h
    exact absurd (List.cons_prefix_cons.mp h).1 (by decide)
  · have e : (phLua j).drop 5 =
        'A' :: 'S' :: 'T' :: 'R' :: '_' :: (natChars j ++ "_PLACEHOLDER___".data) := rfl
    rw [e] at h
    exact absurd (List.cons_prefix_cons.mp h).1 (by decide)
  · have e : (phLua j).drop 6 =
        'S' :: 'T' :: 'R' :: '_' :: (natChars j ++ "_PLACEHOLDER___".data) := rfl
    rw [e] at h
    exact absurd (List.cons_prefix_cons.mp h).1 (by decide)
  · have e : (phLua j).drop 7 =
        'T' :: 'R' :: '_' :: (natChars j ++ "_PLACEHOLDER___".data) := rfl
    rw [e] at h
    exact absurd (List.cons_prefix_cons.mp h).1 (by decide)
  · have e : (phLua j).drop 8 =
        'R' :: '_' :: (natChars j ++ "_PLACEHOLDER___".data) := rfl
    rw [e] at h
    exact absurd (List.cons_prefix_cons.mp h).1 (by decide)

/-- No placeholder occurrence can begin inside a nonempty marker-free
chunk that is followed by a token-started text. -/
theorem cross {j : Nat} {s X : List Char} (hs : s ≠ [])
    (hm : ¬ occurs mark6 s) (hX : TokStart X) : ¬ phLua j <+: s ++ X := by
  intro h
  by_cases hl : 9 ≤ s.length
  · have hlen9 : ((phLua j).take 9).length = 9 := by
      rw [List.length_take, phLua_length j]
      omega
    have ht : (phLua j).take 9 <+: s :=
      List.prefix_of_prefix_length_le
        (List.IsPrefix.trans ( List.take_prefix 9 (phLua j)) h)
        ( List.prefix_append s X) (by rw [hlen9]; omega)
    have e9 : (phLua j).take 9 = "___LUASTR".data := rfl
    rw [e9] at ht
    refine hm (List.IsInfix.trans ?_ ht.isInfix)
    decide
  · have hsl : s.length ≤ (phLua j).length := by
      rw [phLua_length j]; omega
    have hd := pfx_split h hsl
    rcases hX with rfl | ⟨i, X', rfl⟩
    · rw [List.prefix_nil] at hd
      have hlen := congrArg List.length hd
      rw [List.length_drop, phLua_length j] at hlen
      simp only [List.length_nil] at hlen
      omega
    · exact drop_k_not_tok (List.length_pos.mpr hs) (by omega) hd

/-- A placeholder shifted by one to three characters cannot begin a
well-continued text. -/
theorem uscore {j u : Nat} {X : List Char} (h1 : 1 ≤ u) (h2 : u ≤ 3)
    (hX : GoodCont X) : ¬ (phLua j).drop u <+: X := by
  intro h
  rcases hX with hX | ⟨s, X', rfl, hm, hX'⟩
  · rcases hX with rfl | ⟨i, X', rfl⟩
    · rw [List.prefix_nil] at h
      have hlen := congrArg List.length h
      rw [List.length_drop, phLua_length j] at hlen
      simp only [List.length_nil] at hlen
      omega
    · exact drop_k_not_tok h1 (by omega) h
  · by_cases hnil : s = []
    · subst hnil
      rw [List.nil_append] at h
      rcases hX' with rfl | ⟨i, X'', rfl⟩
      · rw [List.prefix_nil] at h
        have hlen := congrArg List.length h
        rw [List.length_drop, phLua_length j] at hlen
        simp only [List.length_nil] at hlen
        omega
      · exact drop_k_not_tok h1 (by omega) h
    · by_cases hl : 9 - u ≤ s.length
      · have hlent : (((phLua j).drop u).take (9 - u)).length = 9 - u := by
          rw [List.length_take, List.length_drop, phLua_length j]
          omega
        have ht : ((phLua j).drop u).take (9 - u) <+: s :=
          List.prefix_of_prefix_length_le
            (List.IsPrefix.trans ( List.take_prefix _ _) h)
            ( List.prefix_append s X') (by rw [hlent]; omega)
        interval_cases u
        · have e : ((phLua j).drop 1).take 8 = "__LUASTR".data := rfl
          rw [e] at ht
          refine hm (List.IsInfix.trans ?_ ht.isInfix)
          decide
        · have e : ((phLua j).drop 2).take 7 = "_LUASTR".data := rfl
          rw [e] at ht
          refine hm (List.IsInfix.trans ?_ ht.isInfix)
          decide
        · have e : ((phLua j).drop 3).take 6 = "LUASTR".data := rfl
          rw [e] at ht
          refine hm (List.IsInfix.trans ?_ ht.isInfix)
          decide
      · have hsl : s.length ≤ ((phLua j).drop u).length := by
          rw [List.length_drop, phLua_length j]; omega
        have hd := pfx_split h hsl
        rw [List.drop_drop] at hd
        rcases hX' with rfl | ⟨i, X'', rfl⟩
        · rw [List.prefix_nil] at hd
          have hlen := congrArg List.length hd
          rw [List.length_drop, phLua_length j] at hlen
          simp only [List.length_nil] at hlen
          omega
        · have hp : 0 < s.length := List.length_pos.mpr hnil
          exact drop_k_not_tok (by omega) (by omega) hd

/-- A placeholder beginning a placeholder-headed text has the same
index. -/
theorem digcmp {j i : Nat} {X : List Char} (h : phLua j <+: phLua i ++ X) :
    j = i := by
  have ej : phLua j =
      "___LUASTR_".data ++ (natChars j ++ '_' :: "PLACEHOLDER___".data) := by
    simp only [phLua, List.append_assoc]
  have ei : phLua i ++ X =
      "___LUASTR_".data ++ (natChars i ++ '_' :: ("PLACEHOLDER___".data ++ X)) := by
    simp only [phLua, List.append_assoc]
    rfl
  rw [ej, ei, List.prefix_append_right_inj] at h
  exact natChars_inj (digits_pfx_eq _ _ _ _ (fun c hc => natChars_digit hc)
    (fun c hc => natChars_digit hc) h)

/-- A placeholder never begins strictly inside another placeholder that is
followed by a well-continued text. -/
theorem shift {j i m : Nat} {X : List Char} (h1 : 1 ≤ m)
    (h2 : m < (phLua i).length) (hX : GoodCont X) :
    ¬ phLua j <+: (phLua i).drop m ++ X := by
  intro h
  have ej : phLua j =
      '_' :: '_' :: '_' :: 'L' :: 'U' :: 'A' :: 'S' :: 'T' :: 'R' :: '_' ::
        (natChars j ++ "_PLACEHOLDER___".data) := rfl
  rcases Nat.lt_or_ge m 10 with hm10 | hm10
  · interval_cases m
    · have e : (phLua i).drop 1 ++ X =
          '_' :: '_' :: 'L' :: 'U' :: 'A' :: 'S' :: 'T' :: 'R' :: '_' ::
            ((natChars i ++ "_PLACEHOLDER___".data) ++ X) := rfl
      rw [e, ej] at h
      have h' := (List.cons_prefix_cons.mp (List.cons_prefix_cons.mp h).2).2
      exact absurd (List.cons_prefix_cons.mp h').1 (by decide)
    · have e : (phLua i).drop 2 ++ X =
          '_' :: 'L' :: 'U' :: 'A' :: 'S' :: 'T' :: 'R' :: '_' ::
            ((natChars i ++ "_PLACEHOLDER___".data) ++ X) := rfl
      rw [e, ej] at h
      have h' := (List.cons_prefix_cons.mp h).2
      exact absurd (List.cons_prefix_cons.mp h').1 (by decide)
    · have e : (phLua i).drop 3 ++ X =
          'L' :: 'U' :: 'A' :: 'S' :: 'T' :: 'R' :: '_' ::
            ((natChars i ++ "_PLACEHOLDER___".data) ++ X) := rfl
      rw [e, ej] at h
      exact absurd (List.cons_prefix_cons.mp h).1 (by decide)
    · have e : (phLua i).drop 4 ++ X =
          'U' :: 'A' :: 'S' :: 'T' :: 'R' :: '_' :: ((natChars i ++ "_PLACEHOLDER___".data) ++ X) := rfl
      rw [e, ej] at h
      exact absurd (List.cons_prefix_cons.mp h).1 (by decide)
    · have e : (phLua i).drop 5 ++ X =
          'A' :: 'S' :: 'T' :: 'R' :: '_' :: ((natChars i ++ "_PLACEHOLDER___".data) ++ X) := rfl
      rw [e, ej] at h
      exact absurd (List.cons_prefix_cons.mp h).1 (by decide)
    · have e : (phLua i).drop 6 ++ X =
          'S' :: 'T' :: 'R' :: '_' :: ((natChars i ++ "_PLACEHOLDER___".data) ++ X) := rfl
      rw [e, ej] at h
      exact absurd (List.cons_prefix_cons.mp h).1 (by decide)
    · have e : (phLua i).drop 7 ++ X =
          'T' :: 'R' :: '_' :: ((natChars i ++ "_PLACEHOLDER___".data) ++ X) := rfl
      rw [e, ej] at h
      exact absurd (List.cons_prefix_cons.mp h).1 (by decide)
    · have e : (phLua i).drop 8 ++ X =
          'R' :: '_' :: ((natChars i ++ "_PLACEHOLDER___".data) ++ X) := rfl
      rw [e, ej] at h
      exact absurd (List.cons_prefix_cons.mp h).1 (by decide)
    · -- m = 9 : the second character of the text is a digit
      have e : (phLua i).drop 9 ++ X =
          '_' :: ((natChars i ++ "_PLACEHOLDER___".data) ++ X) := rfl
      rw [e, ej] at h
      have h' := (List.cons_prefix_cons.mp h).2
      obtain ⟨d, D', hD⟩ : ∃ d D', natChars i = d :: D' := by
        cases hne : natChars i with
        | nil => exact absurd hne (natChars_ne_nil i)
        | cons d D' => exact ⟨d, D', rfl⟩
      rw [hD, List.cons_append, List.cons_append] at h'
      have hdg : 48 ≤ d.toNat ∧ d.toNat ≤ 57 :=
        natChars_digit (n := i) (by rw [hD]; exact List.mem_cons_self _ _)
      exact dig_ne_us hdg.1 hdg.2 ((List.cons_prefix_cons.mp h').1).symm
  · -- past the marker: inside the digits or the tail
    have hP : phLua i =
        "___LUASTR_".data ++ (natChars i ++ "_PLACEHOLDER___".data) := by
      simp only [phLua, List.append_assoc]
    have hdrop : (phLua i).drop m =
        (natChars i ++ "_PLACEHOLDER___".data).drop (m - 10) := by
      rw [hP, List.drop_append_eq_append_drop]
      have h10 : ("___LUASTR_".data).length = 10 := rfl
      rw [h10]
      have hnil : ("___LUASTR_".data).drop m = [] :=
        List.drop_eq_nil_of_le (by rw [h10]; omega)
      rw [hnil, List.nil_append]
    rw [hdrop] at h
    rcases Nat.lt_or_ge (m - 10) (natChars i).length with hp | hp
    · -- inside the digit run: the text head is a digit
      rw [List.drop_append_eq_append_drop, Nat.sub_eq_zero_of_le (Nat.le_of_lt hp),
        List.drop_zero] at h
      cases hdnil : (natChars i).drop (m - 10) with
      | nil =>
        have hlen := congrArg List.length hdnil
        rw [List.length_drop] at hlen
        simp only [List.length_nil] at hlen
        omega
      | cons d D' =>
        rw [hdnil, List.cons_append, List.cons_append, ej] at h
        have hmem : d ∈ natChars i := by
          have : d ∈ (natChars i).drop (m - 10) := by
            rw [hdnil]; exact List.mem_cons_self _ _
          exact List.drop_subset _ _ this
        have hdg := natChars_digit hmem
        exact dig_ne_us hdg.1 hdg.2 ((List.cons_prefix_cons.mp h).1).symm
    · -- inside the tail
      rw [List.drop_append_eq_append_drop, List.drop_eq_nil_of_le hp,
        List.nil_append] at h
      obtain ⟨w, hw⟩ : ∃ w, m - 10 - (natChars i).length = w := ⟨_, rfl⟩
      rw [hw] at h
      have hw15 : w < 15 := by
        rw [phLua_length i] at h2
        omega
      interval_cases w
      · have e : ("_PLACEHOLDER___".data).drop 0 ++ X =
            '_' :: 'P' :: ("LACEHOLDER___".data ++ X) := rfl
        rw [e, ej] at h
        have h' := (List.cons_prefix_cons.mp h).2
        exact absurd (List.cons_prefix_cons.mp h').1 (by decide)
      · have e : ("_PLACEHOLDER___".data).drop 1 ++ X =
            'P' :: ("LACEHOLDER___".data ++ X) := rfl
        rw [e, ej] at h
        exact absurd (List.cons_prefix_cons.mp h).1 (by decide)
      · have e : ("_PLACEHOLDER___".data).drop 2 ++ X =
            'L' :: ("ACEHOLDER___".data ++ X) := rfl
        rw [e, ej] at h
        exact absurd (List.cons_prefix_cons.mp h).1 (by decide)
      · have e : ("_PLACEHOLDER___".data).drop 3 ++ X =
            'A' :: ("CEHOLDER___".data ++ X) := rfl
        rw [e, ej] at h
        exact absurd (List.cons_prefix_cons.mp h).1 (by decide)
      · have e : ("_PLACEHOLDER___".data).drop 4 ++ X =
            'C' :: ("EHOLDER___".data ++ X) := rfl
        rw [e, ej] at h
        exact absurd (List.cons_prefix_cons.mp h).1 (by decide)
      · have e : ("_PLACEHOLDER___".data).drop 5 ++ X =
            'E' :: ("HOLDER___".data ++ X) := rfl
        rw [e, ej] at h
        exact absurd (List.cons_prefix_cons.mp h).1 (by decide)
      · have e : ("_PLACEHOLDER___".data).drop 6 ++ X =
            'H' :: ("OLDER___".data ++ X) := rfl
        rw [e, ej] at h
        exact absurd (List.cons_prefix_cons.mp h).1 (by decide)
      · have e : ("_PLACEHOLDER___".data).drop 7 ++ X =
            'O' :: ("LDER___".data ++ X) := rfl
        rw [e, ej] at h
        exact absurd (List.cons_prefix_cons.mp h).1 (by decide)
      · have e : ("_PLACEHOLDER___".data).drop 8 ++ X =
            'L' :: ("DER___".data ++ X) := rfl
        rw [e, ej] at h
        exact absurd (List.cons_prefix_cons.mp h).1 (by decide)
      · have e : ("_PLACEHOLDER___".data).drop 9 ++ X =
            'D' :: ("ER___".data ++ X) := rfl
        rw [e, ej] at h
        exact absurd (List.cons_prefix_cons.mp h).1 (by decide)
      · have e : ("_PLACEHOLDER___".data).drop 10 ++ X =
            'E' :: ("R___".data ++ X) := rfl
        rw [e, ej] at h
        exact absurd (List.cons_prefix_cons.mp h).1 (by decide)
      · have e : ("_PLACEHOLDER___".data).drop 11 ++ X =
            'R' :: ("___".data ++ X) := rfl
        rw [e, ej] at h
        exact absurd (List.cons_prefix_cons.mp h).1 (by decide)
      · -- three trailing underscores
        have e : ("_PLACEHOLDER___".data).drop 12 = ['_', '_', '_'] := rfl
        rw [e] at h
        have h3 : (['_', '_', '_'] : List Char).length ≤ (phLua j).length := by
          rw [phLua_length j]
          simp only [List.length_cons, List.length_nil]
          omega
        have hd := pfx_split h h3
        rw [show (['_', '_', '_'] : List Char).length = 3 from rfl] at hd
        exact uscore (by omega) (by omega) hX hd
      · have e : ("_PLACEHOLDER___".data).drop 13 = ['_', '_'] := rfl
        rw [e] at h
        have h3 : (['_', '_'] : List Char).length ≤ (phLua j).length := by
          rw [phLua_length j]
          simp only [List.length_cons, List.length_nil]
          omega
        have hd := pfx_split h h3
        rw [show (['_', '_'] : List Char).length = 2 from rfl] at hd
        exact uscore (by omega) (by omega) hX hd
      · have e : ("_PLACEHOLDER___".data).drop 14 = ['_'] := rfl
        rw [e] at h
        have h3 : (['_'] : List Char).length ≤ (phLua j).length := by
          rw [phLua_length j]
          simp only [List.length_cons, List.length_nil]
          omega
        have hd := pfx_split h h3
        rw [show (['_'] : List Char).length = 1 from rfl] at hd
        exact uscore (by omega) (by omega) hX hd

/-- The marker is absent from the source of the remaining segments. -/
theorem noMark_tail {sg : LSeg} {r : List LSeg}
    (h : ¬ occurs mark6 (renderSrc (sg :: r))) : ¬ occurs mark6 (renderSrc r) := by
  apply not_occurs_mono h
  refine ⟨LSeg.render sg, [], ?_⟩
  rw [List.append_nil]
  rfl

/-- The protected text of a separated, marker-free decomposition is well
continued. -/
theorem goodCont_renderPh {r : List LSeg} (i : Nat)
    (hm : ¬ occurs mark6 (renderSrc r)) (hsep : sepSegs r) :
    GoodCont (renderPh i r) := by
  cases r with
  | nil => exact Or.inl (Or.inl rfl)
  | cons sg r' =>
    cases sg with
    | str q c => exact Or.inl (Or.inr ⟨i, renderPh (i + 1) r', rfl⟩)
    | code s =>
      right
      refine ⟨s, renderPh i r', rfl, ?_, ?_⟩
      · apply not_occurs_mono hm
        refine ⟨[], renderSrc r', ?_⟩
        rw [List.nil_append]
        rfl
      · cases r' with
        | nil => exact Or.inl rfl
        | cons sg' r'' =>
          cases sg' with
          | str q' c' => exact Or.inr ⟨i, renderPh (i + 1) r'', rfl⟩
          | code s' =>
            exfalso
            exact (List.chain'_cons.mp hsep).1 ⟨rfl, rfl⟩

/-- No occurrence of an earlier placeholder anywhere inside the protected
text of the remaining segments. -/
theorem noOcc_ph : ∀ (r : List LSeg) (i j : Nat), j < i →
    (∀ sg ∈ r, wfSeg sg) → ¬ occurs mark6 (renderSrc r) → sepSegs r →
    ∀ s, s <:+ renderPh i r → ¬ phLua j <+: s := by
  intro r
  induction r with
  | nil =>
    intro i j _ _ _ _ s hs h
    have hse : s = [] := List.suffix_nil.mp hs
    subst hse
    rw [List.prefix_nil] at h
    exact phLua_ne_nil j h
  | cons sg r' ih =>
    intro i j hj hwf hm hsep s hs h
    cases sg with
    | code c =>
      rw [show renderPh i (LSeg.code c :: r') = c ++ renderPh i r' from rfl] at hs
      rcases sfx_split hs with hs' | ⟨s₂, hs₂, hne, rfl⟩
      · exact ih i j hj (fun x hx => hwf x (List.mem_cons_of_mem _ hx))
          (noMark_tail hm) hsep.tail s hs' h
      · have hm2 : ¬ occurs mark6 s₂ := by
          apply not_occurs_mono hm
          apply List.IsInfix.trans hs₂.isInfix
          refine ⟨[], renderSrc r', ?_⟩
          rw [List.nil_append]
          rfl
        have htok : TokStart (renderPh i r') := by
          cases r' with
          | nil => exact Or.inl rfl
          | cons sg' r'' =>
            cases sg' with
            | str q' c' => exact Or.inr ⟨i, renderPh (i + 1) r'', rfl⟩
            | code s' =>
              exfalso
              exact (List.chain'_cons.mp hsep).1 ⟨rfl, rfl⟩
        exact cross hne hm2 htok h
    | str q cnt =>
      rw [show renderPh i (LSeg.str q cnt :: r') =
        phLua i ++ renderPh (i + 1) r' from rfl] at hs
      rcases sfx_split hs with hs' | ⟨s₂, hs₂, hne, rfl⟩
      · exact ih (i + 1) j (by omega) (fun x hx => hwf x (List.mem_cons_of_mem _ hx))
          (noMark_tail hm) hsep.tail s hs' h
      · obtain ⟨t, ht⟩ := hs₂
        have hs₂eq : s₂ = (phLua i).drop t.length := by
          rw [← ht, List.drop_left]
        by_cases hm0 : t.length = 0
        · rw [hs₂eq, hm0, List.drop_zero] at h
          have := digcmp h
          omega
        · rw [hs₂eq] at h
          have hlt : t.length < (phLua i).length := by
            have hlen := congrArg List.length ht
            rw [List.length_append] at hlen
            have hpos : 0 < s₂.length := List.length_pos.mpr hne
            omega
          exact shift (by omega) hlt
            (goodCont_renderPh (i + 1) (noMark_tail hm) hsep.tail) h

/-- The rewrite scan copies a region where no match can start. -/
theorem raGo_skip (pat rep : List Char) :
    ∀ (P rest : List Char), (∀ s, s <:+ P → s ≠ [] → ¬ pat <+: s ++ rest) →
    raGo pat rep 0 (P ++ rest) = P ++ raGo pat rep 0 rest := by
  intro P
  induction P with
  | nil => intro rest _; rw [List.nil_append, List.nil_append]
  | cons c P' ih =>
    intro rest h
    have hnotp : ¬ pat <+: (c :: P') ++ rest :=
      h (c :: P') List.suffix_rfl (by simp)
    rw [List.cons_append] at hnotp ⊢
    have hstep : raGo pat rep 0 (c :: (P' ++ rest)) =
        c :: raGo pat rep 0 (P' ++ rest) := by
      simp only [raGo]
      rw [if_neg (fun hb => hnotp ( List.isPrefixOf_iff_prefix.mp hb))]
    rw [hstep,
      ih rest (fun s hsx hsne => h s (hsx.trans (List.suffix_cons c P')) hsne)]
    rfl

/-- The rewrite scan leaves a match-free text unchanged. -/
theorem raGo_none (pat rep : List Char) :
    ∀ (T : List Char), (∀ s, s <:+ T → s ≠ [] → ¬ pat <+: s) →
    raGo pat rep 0 T = T := by
  intro T
  induction T with
  | nil => intro _; rfl
  | cons c cs ih =>
    intro h
    simp only [raGo]
    rw [if_neg (fun hb => h (c :: cs) List.suffix_rfl (by simp)
      ( List.isPrefixOf_iff_prefix.mp hb))]
    rw [ih (fun s hsx hsne => h s (hsx.trans (List.suffix_cons c cs)) hsne)]

/-- The skip counter consumes exactly the rest of a rewritten match. -/
theorem raGo_drop (pat rep : List Char) :
    ∀ (Xl B : List Char), raGo pat rep Xl.length (Xl ++ B) = raGo pat rep 0 B := by
  intro Xl
  induction Xl with
  | nil => intro B; rfl
  | cons x Xl' ih =>
    intro B
    rw [List.cons_append]
    simp only [List.length_cons, raGo]
    exact ih B

/-- Rewriting a text with exactly one designated occurrence of the
pattern. -/
theorem rep_one (pat rep P T : List Char) (hpat : pat ≠ [])
    (hP : ∀ s, s <:+ P → s ≠ [] → ¬ pat <+: s ++ (pat ++ T))
    (hT : ∀ s, s <:+ T → s ≠ [] → ¬ pat <+: s) :
    replaceAll pat rep (P ++ pat ++ T) = P ++ rep ++ T := by
  obtain ⟨p0, pt, rfl⟩ : ∃ p0 pt, pat = p0 :: pt := by
    cases pat with
    | nil => exact absurd rfl hpat
    | cons a b => exact ⟨a, b, rfl⟩
  rw [replaceAll, if_neg hpat, List.append_assoc]
  rw [raGo_skip (p0 :: pt) rep P (p0 :: pt ++ T) hP]
  rw [List.cons_append]
  simp only [raGo]
  have hpre : (p0 :: pt).isPrefixOf (p0 :: (pt ++ T)) = true := by
    apply List.isPrefixOf_iff_prefix.mpr
    exact List.prefix_append (p0 :: pt) T
  rw [if_pos hpre]
  have hl : (p0 :: pt).length - 1 = pt.length := by
    simp only [List.length_cons]
    omega
  rw [hl, raGo_drop (p0 :: pt) rep pt T]
  rw [raGo_none (p0 :: pt) rep T hT, List.append_assoc]

/-- The source of a well-formed decomposition contains no square
bracket. -/
theorem renderSrc_chars : ∀ (segs : List LSeg), (∀ sg ∈ segs, wfSeg sg) →
    ∀ c ∈ renderSrc segs, c ≠ '[' := by
  intro segs
  induction segs with
  | nil => intro _ c hc; simp [renderSrc] at hc
  | cons sg r ih =>
    intro hwf c hc
    rw [show renderSrc (sg :: r) = LSeg.render sg ++ renderSrc r from rfl,
      List.mem_append] at hc
    rcases hc with hc | hc
    · cases sg with
      | code s => exact (hwf _ (List.mem_cons_self _ _) c hc).2.2
      | str q cnt =>
        have hwfs : plainStr q cnt := hwf _ (List.mem_cons_self _ _)
        rw [show LSeg.render (LSeg.str q cnt) = q :: (cnt ++ [q]) from rfl] at hc
        rcases List.mem_cons.mp hc with rfl | hc2
        · rcases hwfs.1 with rfl | rfl <;> decide
        · rcases List.mem_append.mp hc2 with hc3 | hc3
          · exact (hwfs.2 c hc3).2.2.2
          · have hcq : c = q := List.mem_singleton.mp hc3
            subst hcq
            rcases hwfs.1 with rfl | rfl <;> decide
    · exact ih (fun x hx => hwf x (List.mem_cons_of_mem _ hx)) c hc

/-- The long-bracket pass leaves a bracket-free text untouched. -/
theorem extBracket_id : ∀ (f : Nat) (code : List Char) (i : Nat),
    code.length ≤ f → (∀ c ∈ code, c ≠ '[') →
    extGo mLuaBracket phLua f i code = (code, []) := by
  intro f
  induction f with
  | zero =>
    intro code i hl _
    cases code with
    | nil => rfl
    | cons c cs => simp at hl
  | succ f ih =>
    intro code i hl hc
    cases code with
    | nil => rfl
    | cons c cs =>
      have hcn : c ≠ '[' := hc c (List.mem_cons_self c cs)
      have hM : mLuaBracket (c :: cs) = none := by
        rw [mLuaBracket, if_neg]
        intro hb
        have hp := List.isPrefixOf_iff_prefix.mp hb
        rw [show ("[[".data : List Char) = '[' :: ['['] from rfl] at hp
        exact hcn ((List.cons_prefix_cons.mp hp).1).symm
      have hcs : extGo mLuaBracket phLua f i cs = (cs, []) := by
        apply ih
        · simp only [List.length_cons] at hl; omega
        · exact fun x hx => hc x (List.mem_cons_of_mem c hx)
      simp only [extGo, hM, hcs]

/-- Scanning a clean literal body stops exactly at the closing quote. -/
theorem scanQ_clean (q : Char) :
    ∀ (content T : List Char), (∀ c ∈ content, c ≠ q ∧ c ≠ '\\') →
    scanQ q (content ++ q :: T) = some (content ++ [q], T) := by
  intro content
  induction content with
  | nil =>
    intro T _
    rw [List.nil_append]
    unfold scanQ
    rw [if_pos rfl]
    rfl
  | cons c cc ih =>
    intro T h
    have hc := h c (List.mem_cons_self c cc)
    have hstep : scanQ q (c :: (cc ++ q :: T)) =
        (scanQ q (cc ++ q :: T)).map (fun p => (c :: p.1, p.2)) := by
      conv_lhs => unfold scanQ
      rw [if_neg hc.1, if_neg hc.2]
    rw [List.cons_append, hstep, ih T (fun x hx => h x (List.mem_cons_of_mem c hx))]
    rfl

/-- The two-quote matcher on a simple quoted literal. -/
theorem mQuote2_lit {q : Char} (hq : q = '"' ∨ q = '\'') (content T : List Char)
    (h : ∀ c ∈ content, c ≠ '"' ∧ c ≠ '\'' ∧ c ≠ '\\') :
    mQuote2 (q :: (content ++ q :: T)) = some (q :: content ++ [q], T) := by
  rcases hq with rfl | rfl
  · have hmq : matchQ '"' ('"' :: (content ++ '"' :: T)) =
        some ('"' :: (content ++ ['"']), T) := by
      simp only [matchQ, if_true]
      rw [scanQ_clean '"' content T (fun c hc => ⟨(h c hc).1, (h c hc).2.2⟩)]
      rfl
    simp only [mQuote2, hmq]
    rfl
  · have hmq1 : matchQ '"' ('\'' :: (content ++ '\'' :: T)) = none := by
      simp only [matchQ]
      rw [if_neg (by decide : ¬ ('\'' : Char) = '"')]
    have hmq2 : matchQ '\'' ('\'' :: (content ++ '\'' :: T)) =
        some ('\'' :: (content ++ ['\'']), T) := by
      simp only [matchQ, if_true]
      rw [scanQ_clean '\'' content T (fun c hc => ⟨(h c hc).2.1, (h c hc).2.2⟩)]
      rfl
    simp only [mQuote2, hmq1, hmq2]
    rfl

/-- The quote pass copies a chunk containing no quote character. -/
theorem extQuote_skip :
    ∀ (s : List Char), (∀ c ∈ s, c ≠ '"' ∧ c ≠ '\'') →
    ∀ (T : List Char) (f i : Nat),
    extGo mQuote2 phLua (s.length + f) i (s ++ T) =
      (s ++ (extGo mQuote2 phLua f i T).1, (extGo mQuote2 phLua f i T).2) := by
  intro s
  induction s with
  | nil =>
    intro _ T f i
    simp only [List.length_nil, List.nil_append, Nat.zero_add]
  | cons c cc ih =>
    intro hch T f i
    have hc := hch c (List.mem_cons_self c cc)
    have hM : mQuote2 (c :: (cc ++ T)) = none := by
      have hq1 : matchQ '"' (c :: (cc ++ T)) = none := by
        simp only [matchQ]
        rw [if_neg hc.1]
      have hq2 : matchQ '\'' (c :: (cc ++ T)) = none := by
        simp only [matchQ]
        rw [if_neg hc.2]
      simp only [mQuote2, hq1, hq2]
    rw [List.cons_append]
    rw [show (c :: cc).length + f = (cc.length + f) + 1 by
      simp only [List.length_cons]; omega]
    simp only [extGo, hM]
    rw [ih (fun x hx => hch x (List.mem_cons_of_mem c hx)) T f i]
    rfl

/-- The quote extraction pass on a decomposed source text. -/
theorem extQuote_trace : ∀ (segs : List LSeg) (f i : Nat),
    (∀ sg ∈ segs, wfSeg sg) → (renderSrc segs).length ≤ f →
    extGo mQuote2 phLua f i (renderSrc segs) = (renderPh i segs, strsOf segs) := by
  intro segs
  induction segs with
  | nil => intro f i _ _; cases f <;> rfl
  | cons sg r ih =>
    intro f i hwf hl
    cases sg with
    | code s =>
      have hwfc : plainCode s := hwf (LSeg.code s) (List.mem_cons_self _ _)
      have hrend : renderSrc (LSeg.code s :: r) = s ++ renderSrc r := rfl
      rw [hrend] at hl ⊢
      rw [List.length_append] at hl
      rw [show f = s.length + (f - s.length) by omega]
      rw [extQuote_skip s (fun c hc => ⟨(hwfc c hc).1, (hwfc c hc).2.1⟩)
        (renderSrc r) (f - s.length) i]
      rw [ih (f - s.length) i (fun x hx => hwf x (List.mem_cons_of_mem _ hx))
        (by omega)]
      rfl
    | str q cnt =>
      have hwfs : plainStr q cnt := hwf _ (List.mem_cons_self _ _)
      have hrend : renderSrc (LSeg.str q cnt :: r) =
          q :: (cnt ++ q :: renderSrc r) := by
        rw [show renderSrc (LSeg.str q cnt :: r) =
          (q :: cnt ++ [q]) ++ renderSrc r from rfl]
        simp [List.append_assoc]
      rw [hrend] at hl ⊢
      cases f with
      | zero => simp at hl
      | succ f' =>
        have hfl : (renderSrc r).length ≤ f' := by
          simp only [List.length_cons, List.length_append] at hl
          omega
        have hM := mQuote2_lit hwfs.1 cnt (renderSrc r)
          (fun c hc => ⟨(hwfs.2 c hc).1, (hwfs.2 c hc).2.1, (hwfs.2 c hc).2.2.1⟩)
        simp only [extGo, hM]
        rw [ih f' (i + 1) (fun x hx => hwf x (List.mem_cons_of_mem _ hx)) hfl]
        rfl

/-- Extraction on a decomposed source: the bracket pass is the identity
and the quote pass produces the protected text with the recorded
literals. -/
theorem luaExtract_decomp (segs : List LSeg) (hwf : ∀ sg ∈ segs, wfSeg sg) :
    luaExtract (renderSrc segs) = (renderPh 0 segs, strsOf segs) := by
  have h1 : extract mLuaBracket phLua 0 (renderSrc segs) = (renderSrc segs, []) :=
    extBracket_id _ _ 0 le_rfl (renderSrc_chars segs hwf)
  have h2 : extract mQuote2 phLua 0 (renderSrc segs) = (renderPh 0 segs, strsOf segs) :=
    extQuote_trace segs _ 0 hwf le_rfl
  simp only [luaExtract, h1, List.length_nil, h2, List.nil_append]

/-- With every encoding flag off, the per-literal restore step is the
identity. -/
theorem luaRepl_off (orig : List Char) : luaRepl optsOff orig = orig := by
  simp only [luaRepl]
  split
  · split
    · rw [if_neg (by decide)]
    · rfl
  · rfl

/-- Restoring the recorded originals over the protected text reproduces
the source text. -/
theorem restore_trace : ∀ (segs : List LSeg) (j : Nat) (P : List Char),
    (∀ sg ∈ segs, wfSeg sg) → sepSegs segs →
    ¬ occurs mark6 (P ++ renderSrc segs) →
    List.foldl (fun t p => replaceAll (phLua p.1) p.2 t)
      (P ++ renderPh j segs) (List.enumFrom j (strsOf segs)) =
    P ++ renderSrc segs := by
  intro segs
  induction segs with
  | nil => intro j P _ _ _; rfl
  | cons sg r ih =>
    intro j P hwf hsep hm
    cases sg with
    | code c =>
      have e3 : P ++ renderSrc (LSeg.code c :: r) = (P ++ c) ++ renderSrc r := by
        rw [show renderSrc (LSeg.code c :: r) = c ++ renderSrc r from rfl,
          List.append_assoc]
      have hm2 : ¬ occurs mark6 ((P ++ c) ++ renderSrc r) := by
        rw [← e3]
        exact hm
      have e1 : P ++ renderPh j (LSeg.code c :: r) = (P ++ c) ++ renderPh j r := by
        rw [show renderPh j (LSeg.code c :: r) = c ++ renderPh j r from rfl,
          List.append_assoc]
      rw [show strsOf (LSeg.code c :: r) = strsOf r from rfl, e1,
        ih j (P ++ c) (fun x hx => hwf x (List.mem_cons_of_mem _ hx))
          hsep.tail hm2]
      exact e3.symm
    | str q cnt =>
      have hwfr : ∀ sg ∈ r, wfSeg sg :=
        fun x hx => hwf x (List.mem_cons_of_mem _ hx)
      have hmr : ¬ occurs mark6 (renderSrc r) := by
        apply not_occurs_mono hm
        refine ⟨P ++ (q :: cnt ++ [q]), [], ?_⟩
        rw [List.append_nil, List.append_assoc]
        rfl
      have hPm : ¬ occurs mark6 P := by
        apply not_occurs_mono hm
        exact ⟨[], renderSrc (LSeg.str q cnt :: r), by simp⟩
      have erend : P ++ renderSrc (LSeg.str q cnt :: r) =
          (P ++ (q :: cnt ++ [q])) ++ renderSrc r := by
        rw [List.append_assoc]
        rfl
      have hstep : replaceAll (phLua j) (q :: cnt ++ [q])
          (P ++ (phLua j ++ renderPh (j + 1) r)) =
          (P ++ (q :: cnt ++ [q])) ++ renderPh (j + 1) r := by
        rw [← List.append_assoc]
        have hr := rep_one (phLua j) (q :: cnt ++ [q]) P (renderPh (j + 1) r)
          (phLua_ne_nil j) ?_ ?_
        · exact hr
        · intro s hsx hsne
          exact cross hsne (not_occurs_mono hPm hsx.isInfix)
            (Or.inr ⟨j, renderPh (j + 1) r, rfl⟩)
        · intro s hsx hsne
          exact noOcc_ph r (j + 1) j (by omega) hwfr hmr hsep.tail s hsx
      rw [show strsOf (LSeg.str q cnt :: r) = (q :: cnt ++ [q]) :: strsOf r from rfl]
      rw [show renderPh j (LSeg.str q cnt :: r) =
        phLua j ++ renderPh (j + 1) r from rfl]
      rw [show List.enumFrom j ((q :: cnt ++ [q]) :: strsOf r) =
        (j, q :: cnt ++ [q]) :: List.enumFrom (j + 1) (strsOf r) from rfl]
      rw [List.foldl_cons]
      have hm3 : ¬ occurs mark6 ((P ++ (q :: cnt ++ [q])) ++ renderSrc r) := by
        rw [← erend]
        exact hm
      calc List.foldl (fun t p => replaceAll (phLua p.1) p.2 t)
            (replaceAll (phLua j) (q :: cnt ++ [q])
              (P ++ (phLua j ++ renderPh (j + 1) r)))
            (List.enumFrom (j + 1) (strsOf r))
          = List.foldl (fun t p => replaceAll (phLua p.1) p.2 t)
              ((P ++ (q :: cnt ++ [q])) ++ renderPh (j + 1) r)
              (List.enumFrom (j + 1) (strsOf r)) := by rw [hstep]
        _ = (P ++ (q :: cnt ++ [q])) ++ renderSrc r :=
              ih (j + 1) (P ++ (q :: cnt ++ [q])) hwfr hsep.tail hm3
        _ = P ++ renderSrc (LSeg.str q cnt :: r) := erend.symm

/-- C1 (amended): for the Lua handler with every option off, extraction
followed by restoration reproduces the input exactly, for every input
that decomposes into plain code chunks and simple quoted literals with no
two adjacent code chunks, provided the marker substring `LUASTR` occurs
nowhere in the input.  The counterexample `lua_roundtrip_cex` shows the
original unconditional claim fails on inputs that contain
placeholder-shaped text. -/
theorem lua_roundtrip_decomposable (segs : List LSeg) (inst : VarMap)
    (ν : Nat → List Char) (ρ : Nat → Bool)
    (hwf : ∀ sg ∈ segs, wfSeg sg) (hsep : sepSegs segs)
    (hm : ¬ occurs mark6 (renderSrc segs)) :
    luaObfuscate inst optsOff ν ρ (renderSrc segs) = renderSrc segs := by
  simp only [luaObfuscate, luaExtract_decomp segs hwf]
  rw [if_neg (by decide : ¬ (optsOff.removeComments = true)),
    if_neg (by decide : ¬ (optsOff.renameVariables = true)),
    if_neg (by decide : ¬ (optsOff.deadCodeInjection = true)),
    if_neg (by decide : ¬ (minifyOn optsOff = true))]
  have hfeq : (fun (t : List Char) (p : Nat × List Char) =>
      replaceAll (phLua p.1) (luaRepl optsOff p.2) t) =
      (fun (t : List Char) (p : Nat × List Char) =>
        replaceAll (phLua p.1) p.2 t) := by
    funext t p
    rw [luaRepl_off]
  rw [hfeq]
  exact restore_trace segs 0 [] hwf hsep hm

/-- Concrete witness for the amended Lua round trip, at the decomposition
of the input text `local x = "hi" end`. -/
theorem lua_roundtrip_decomposable_wit :
    (∀ sg ∈ ([LSeg.code "local x = ".data, LSeg.str '"' "hi".data,
        LSeg.code " end".data] : List LSeg), wfSeg sg) ∧
    sepSegs [LSeg.code "local x = ".data, LSeg.str '"' "hi".data,
        LSeg.code " end".data] ∧
    ¬ occurs mark6 (renderSrc [LSeg.code "local x = ".data,
        LSeg.str '"' "hi".data, LSeg.code " end".data]) ∧
    luaObfuscate [] optsOff nameNil rngOff
        (renderSrc [LSeg.code "local x = ".data, LSeg.str '"' "hi".data,
          LSeg.code " end".data]) =
      renderSrc [LSeg.code "local x = ".data, LSeg.str '"' "hi".data,
        LSeg.code " end".data] :=
  have hsep : sepSegs [LSeg.code "local x = ".data, LSeg.str '"' "hi".data,
      LSeg.code " end".data] :=
    List.chain'_cons.mpr ⟨by decide, List.chain'_cons.mpr ⟨by decide,
      List.chain'_singleton _⟩⟩
  ⟨by decide, hsep, by decide,
    lua_roundtrip_decomposable _ [] nameNil rngOff (by decide) hsep (by decide)⟩

end Obf
